import Mathlib

/-!
# Earthquake model (ProgettoHPC1819): shallow embedding and verification

Sources embedded: `src/mpi-earthquake.c` and `src/omp-earthquake.c`.

Modelling conventions.
* A `float *` is a buffer `Buf = Int → ℚ`: element offset relative to the
  pointer ↦ value.  Floating point arithmetic is idealised as exact rational
  arithmetic.
* `IDX` returns a pointer in the source; here it returns the element offset, so
  `*IDX(g,i,j,n)` is `g (IDX i j n)` and a store is `Function.update`.
* C `/` on `int` is `Int.tdiv`.  The `int` arithmetic of the partitioner is
  32-bit (`wrap32`); `partition_exact` is the same computation without
  overflow.  Grid coordinates and offsets are mathematical integers.
* `for (int i = 0; i < m; i++)` is `forLoop m`.
* `cur` and `next` are distinct allocations (`main` obtains them from two
  separate `malloc` calls), so a store to `next` never changes `cur`.  This is
  justified on a one-memory model, `propagate_energy_mem`, in which both
  pointers are addresses into the same memory (`propagate_energy_mem_view`).
* Functions that only read a buffer (`count_cells`, `sum_energy`) return their
  result alone.
* Freshly allocated memory has arbitrary content: it is a parameter of the
  model (`s0`, `d0`, `memC`, `memN`).  A read outside an allocated array, such
  as `sendcnts[-1]` on rank `0`, returns that arbitrary content.
* The MPI processes are modelled as a map rank ↦ local buffers; a message
  copies a block of floats from the sender's buffer into the receiver's.
-/

namespace Earthquake

/-! ## Definitions -/

/-- Contents of the memory reachable from a `float *`, by element offset. -/
abbrev Buf := Int → ℚ

/-- The constant `#define EMAX 4.0f`. -/
def EMAX : ℚ := 4

/-- The constant `#define EDELTA 1e-4`. -/
def EDELTA : ℚ := 1 / 10000

/-- The constant `#define HALO 1`. -/
def HALO : Int := 1

/-- `IDX(grid, i, j, n)`: offset `(i + HALO) * n + j + HALO` from `grid`. -/
def IDX (i j n : Int) : Int := (i + HALO) * n + j + HALO

/-- The loop `for (int i = 0; i < m; i++) body(i)` acting on a state. -/
def forLoop {σ : Type} (m : Int) (body : Int → σ → σ) (s : σ) : σ :=
  (List.range m.toNat).foldl (fun acc k => body (k : Int) acc) s

/-- `increment_energy(grid, n, m, delta)` of `mpi-earthquake.c`. -/
def increment_energy (grid : Buf) (n m : Int) (delta : ℚ) : Buf :=
  forLoop m (fun i g =>
    forLoop n (fun j g =>
      Function.update g (IDX i j n) (g (IDX i j n) + delta)) g) grid

/-- The local constant `FDELTA = EMAX/4` of `propagate_energy`. -/
def FDELTA : ℚ := EMAX / 4

/-- Body of the inner loop of `propagate_energy` in `mpi-earthquake.c`: the
value `F` stored through `out` for the cell `(i, j)`. -/
def propagate_cell (cur : Buf) (n i j : Int) : ℚ :=
  let F := cur (IDX i j n)
  let F := if 0 < j ∧ cur (IDX i (j - 1) n) > EMAX then F + FDELTA else F
  let F := if j < n - 1 ∧ cur (IDX i (j + 1) n) > EMAX then F + FDELTA else F
  let F := if 0 < i ∧ cur (IDX (i - 1) j n) > EMAX then F + FDELTA else F
  let F := if i < n - 1 ∧ cur (IDX (i + 1) j n) > EMAX then F + FDELTA else F
  if F > EMAX then F - EMAX else F

/-- `propagate_energy(cur, next, n, m)` of `mpi-earthquake.c`; the result is the
new contents of `next`. -/
def propagate_energy (cur next : Buf) (n m : Int) : Buf :=
  forLoop m (fun i nx =>
    forLoop n (fun j nx =>
      Function.update nx (IDX i j n) (propagate_cell cur n i j)) nx) next

/-- Body of the inner loop of `propagate_energy` in `omp-earthquake.c`: the
four neighbours are read without any edge check. -/
def omp_propagate_cell (cur : Buf) (n i j : Int) : ℚ :=
  let F := cur (IDX i j n)
  let F := if cur (IDX i (j - 1) n) > EMAX then F + FDELTA else F
  let F := if cur (IDX i (j + 1) n) > EMAX then F + FDELTA else F
  let F := if cur (IDX (i - 1) j n) > EMAX then F + FDELTA else F
  let F := if cur (IDX (i + 1) j n) > EMAX then F + FDELTA else F
  if F > EMAX then F - EMAX else F

/-- `propagate_energy(cur, next, n)` of `omp-earthquake.c`; the result is the
new contents of `next`. -/
def omp_propagate_energy (cur next : Buf) (n : Int) : Buf :=
  forLoop n (fun i nx =>
    forLoop n (fun j nx =>
      Function.update nx (IDX i j n) (omp_propagate_cell cur n i j)) nx) next

/-- The shape shared by every grid-writing loop nest of the program: the cell
`(i, j)` receives `h i j v` where `v` is its previous content. -/
def storeLoop (h : Int → Int → ℚ → ℚ) (g : Buf) (n m : Int) : Buf :=
  forLoop m (fun i g =>
    forLoop n (fun j g =>
      Function.update g (IDX i j n) (h i j (g (IDX i j n)))) g) g

/-- One row of a store loop: the inner `for j` loop for a fixed row `i`. -/
def storeRow (h : Int → Int → ℚ → ℚ) (n i : Int) (k : Int) (g : Buf) : Buf :=
  forLoop k (fun j g => Function.update g (IDX i j n) (h i j (g (IDX i j n)))) g

/-- The coordinate `(i, j)` lies inside the `n × n` domain. -/
def inDomain (n i j : Int) : Prop := 0 ≤ i ∧ i < n ∧ 0 ≤ j ∧ j < n

instance (n i j : Int) : Decidable (inDomain n i j) := by
  unfold inDomain; infer_instance

/-- Indicator of "the neighbour `(i, j)` lies inside the domain and its energy
in `cur` is strictly greater than `EMAX`". -/
def hot (cur : Buf) (n i j : Int) : Nat :=
  if inDomain n i j ∧ cur (IDX i j n) > EMAX then 1 else 0

/-- Number of axis-neighbours of `(i, j)` that lie inside the `n × n` domain
and whose energy in `cur` is strictly greater than `EMAX`. -/
def hotNeighbours (cur : Buf) (n i j : Int) : Nat :=
  hot cur n i (j - 1) + hot cur n i (j + 1) + hot cur n (i - 1) j + hot cur n (i + 1) j

/-- The single release `g` of the propagation rule: subtract `EMAX` once when
the value exceeds `EMAX`. -/
def release (F : ℚ) : ℚ := if F > EMAX then F - EMAX else F

/-- The value of `F` in `propagate_energy` just before the test `F > EMAX`. -/
def gathered (cur : Buf) (n i j : Int) : ℚ :=
  let F := cur (IDX i j n)
  let F := if 0 < j ∧ cur (IDX i (j - 1) n) > EMAX then F + FDELTA else F
  let F := if j < n - 1 ∧ cur (IDX i (j + 1) n) > EMAX then F + FDELTA else F
  let F := if 0 < i ∧ cur (IDX (i - 1) j n) > EMAX then F + FDELTA else F
  if i < n - 1 ∧ cur (IDX (i + 1) j n) > EMAX then F + FDELTA else F

/-- Buffer holding `v` at the single offset `c` and `0` elsewhere. -/
def spike (c : Int) (v : ℚ) : Buf := fun p => if p = c then v else 0

/-- `(i, j)` and `(ci, cj)` are axis-neighbours. -/
def axisNeighbour (i j ci cj : Int) : Prop :=
  (i = ci ∧ (j = cj - 1 ∨ j = cj + 1)) ∨ (j = cj ∧ (i = ci - 1 ∨ i = ci + 1))

instance (i j ci cj : Int) : Decidable (axisNeighbour i j ci cj) := by
  unfold axisNeighbour; infer_instance

/-- The all-zero buffer. -/
def zeroBuf : Buf := fun _ => 0

/-- Contents of the memory reachable from an `int *`, by element index. -/
abbrev IntArr := Int → Int

/-- The two partition tables `sendcnts` and `displ` of `main`
(`mpi-earthquake.c`). -/
structure Tables where
  /-- Row count of each rank. -/
  sendcnts : IntArr
  /-- First row of each rank. -/
  displ : IntArr

/-- Body of the partitioner loop with every `int` operation taken exactly (no
overflow); `partition_body` is the same body on 32-bit `int`. -/
def partition_body_exact (n comm_size : Int) (k : Int) (t : Tables) : Tables :=
  let i := k + 1
  let displ := Function.update t.displ i (t.displ (i - 1) + t.sendcnts (i - 1))
  let sendcnts := Function.update t.sendcnts i
    (Int.tdiv ((i + 1) * n) comm_size - Int.tdiv (i * n) comm_size)
  { sendcnts := sendcnts, displ := displ }

/-- The tables before the loop: `sendcnts[0] = n / comm_size`, `displ[0] = 0`;
`s0` and `d0` are the contents of the two freshly allocated arrays. -/
def partition_init (n comm_size : Int) (s0 d0 : IntArr) : Tables :=
  { sendcnts := Function.update s0 0 (Int.tdiv n comm_size),
    displ := Function.update d0 0 0 }

/-- The partitioner with every `int` operation taken exactly (no overflow).  It
computes the same tables as `partition` whenever `comm_size * n ≤ INT_MAX`
(`partition_eq_exact`). -/
def partition_exact (n comm_size : Int) (s0 d0 : IntArr) : Tables :=
  forLoop (comm_size - 1) (partition_body_exact n comm_size) (partition_init n comm_size s0 d0)

/-- The largest value of a 32-bit C `int`. -/
def INT_MAX : Int := 2147483647

/-- The value a 32-bit `int` holds after an arithmetic operation whose exact
result is `x`: two's-complement wrap-around into `[-2^31, 2^31)`. -/
def wrap32 (x : Int) : Int := (x + 2147483648) % 4294967296 - 2147483648

/-- Body of the loop `for (int i = 1; i < comm_size; i++)` of the partitioner;
`k` counts the iterations from `0`, so that `i = k + 1`.  The products
`(i+1) * n` and `i * n`, the difference of the two quotients and the sum
`displ[i-1] + sendcnts[i-1]` are 32-bit `int` operations. -/
def partition_body (n comm_size : Int) (k : Int) (t : Tables) : Tables :=
  let i := k + 1
  let displ := Function.update t.displ i (wrap32 (t.displ (i - 1) + t.sendcnts (i - 1)))
  let sendcnts := Function.update t.sendcnts i
    (wrap32 (Int.tdiv (wrap32 ((i + 1) * n)) comm_size
      - Int.tdiv (wrap32 (i * n)) comm_size))
  { sendcnts := sendcnts, displ := displ }

/-- The partitioner, lines 218-230 of `main` in `mpi-earthquake.c`. -/
def partition (n comm_size : Int) (s0 d0 : IntArr) : Tables :=
  forLoop (comm_size - 1) (partition_body n comm_size) (partition_init n comm_size s0 d0)

/-- An arbitrary content for a freshly allocated `int` array. -/
def zeroArr : IntArr := fun _ => 0

/-- `setup(grid, n, fmin, fmax)`: every owned cell of the `n × n` domain is
overwritten with the value `randab` returned for it; `vals i j` stands for the
value drawn at iteration `(i, j)`. -/
def setup (grid : Buf) (n : Int) (vals : Int → Int → ℚ) : Buf :=
  forLoop n (fun i g =>
    forLoop n (fun j g =>
      Function.update g (IDX i j n) (vals i j)) g) grid

/-- Local memory of one MPI process: its two buffers. -/
structure Proc where
  /-- The buffer `cur`. -/
  cur : Buf
  /-- The buffer `next`. -/
  next : Buf

/-- Effect of receiving a message on the receive buffer: `count` consecutive
floats, read from offset `p` of the sender's buffer `src`, are stored from
offset `q` of `dst` on. -/
def recvBlock (dst : Buf) (q : Int) (src : Buf) (p : Int) (count : Int) : Buf :=
  fun x => if q ≤ x ∧ x < q + count then src (p + (x - q)) else dst x

/-- The `MPI_Scatterv` call of `main`: rank `r` receives `sendcnts[r]` rows of
`n` floats (`rowtype` has one block of `n` floats), taken `displ[r]` rows after
`IDX(cur, 0, 0, n)` in the root's buffer, and stores them from
`IDX(cur, 0, 0, n)` of its own buffer on.  `mem r` is the content of the buffer
`cur` of rank `r` before the call. -/
def scatter (n : Int) (t : Tables) (mem : Int → Buf) (r : Int) : Buf :=
  recvBlock (mem r) (IDX 0 0 n) (mem 0) (IDX 0 0 n + t.displ r * n) (t.sendcnts r * n)

/-- The first `MPI_Sendrecv` of a time step, seen from rank `r`: unless
`upDest = rank - 1` is negative (`MPI_PROC_NULL`), the `HALO` rows that rank
`r - 1` sends from `IDX(cur, sendcnts[sender] - HALO, 0, n)`, with
`sender = rank - 1` evaluated on rank `r - 1`, arrive at `&cur[HALO]`. -/
def sendrecv_down (n : Int) (t : Tables) (cur : Int → Buf) (r : Int) : Buf :=
  if r - 1 < 0 then cur r
  else recvBlock (cur r) HALO (cur (r - 1))
    (IDX (t.sendcnts (r - 1 - 1) - HALO) 0 n) (HALO * n)

/-- The second `MPI_Sendrecv` of a time step, seen from rank `r`: unless
`downDest = rank + 1` equals `comm_size` (`MPI_PROC_NULL`), the `HALO` rows
that rank `r + 1` sends from `IDX(cur, 0, 0, n)` arrive at
`IDX(cur, sendcnts[sender], 0, n)` with `sender = rank - 1`. -/
def sendrecv_up (n comm_size : Int) (t : Tables) (cur : Int → Buf) (r : Int) : Buf :=
  if r + 1 = comm_size then cur r
  else recvBlock (cur r) (IDX (t.sendcnts (r - 1)) 0 n) (cur (r + 1)) (IDX 0 0 n) (HALO * n)

/-- One iteration of the time loop of `main` in `mpi-earthquake.c`, on all
ranks at once (the two `MPI_Reduce` calls only produce diagnostics). -/
def mpi_step (n comm_size : Int) (t : Tables) (w : Int → Proc) : Int → Proc :=
  let c1 : Int → Buf := fun r => increment_energy (w r).cur n (t.sendcnts r) EDELTA
  let c2 : Int → Buf := fun r => sendrecv_down n t c1 r
  let c3 : Int → Buf := fun r => sendrecv_up n comm_size t c2 r
  fun r => { cur := propagate_energy (c3 r) (w r).next n (t.sendcnts r), next := c3 r }

/-- The program `main` of `mpi-earthquake.c` from the partitioner to the end of
the time loop.  `s0`, `d0` are the contents of the freshly allocated tables,
`memC r` and `memN r` those of the freshly allocated `cur` and `next` of rank
`r`, and `vals` the values drawn by `setup`, which runs on rank `0` only. -/
def mpi_main (n comm_size nsteps : Int) (s0 d0 : IntArr) (memC memN : Int → Buf)
    (vals : Int → Int → ℚ) : Int → Proc :=
  let t := partition n comm_size s0 d0
  let mem : Int → Buf := fun r => if r = 0 then setup (memC r) n vals else memC r
  forLoop nsteps (fun _ w => mpi_step n comm_size t w)
    (fun r => { cur := scatter n t mem r, next := memN r })

/-- Observation used to compare runs with different worker counts (the program
itself never collects the grid): the owned rows of all workers concatenated in
rank order, as a buffer laid out like the undistributed grid.  The rows of rank
`r` are placed `displ[r]` rows after `IDX(0, 0, n)`, the inverse of the
scatter. -/
def gather (n comm_size : Int) (t : Tables) (w : Int → Proc) : Buf :=
  forLoop comm_size (fun r g =>
    recvBlock g (IDX 0 0 n + t.displ r * n) (w r).cur (IDX 0 0 n) (t.sendcnts r * n)) zeroBuf

/-- The initial values of the failing input of C4: `10` in the cell `(0, 0)`,
`0` in every other cell. -/
def cornerVals : Int → Int → ℚ := fun i j => if i = 0 ∧ j = 0 then 10 else 0

/-- `count_cells(grid, n, m)` of `mpi-earthquake.c`: the returned counter `c`.
The function only reads `grid`. -/
def count_cells (grid : Buf) (n m : Int) : Int :=
  forLoop m (fun i c =>
    forLoop n (fun j c => if grid (IDX i j n) > EMAX then c + 1 else c) c) 0

/-- `count_cells(grid, n)` of `omp-earthquake.c` (the `reduction(+: c)` adds
the same unit increments). -/
def omp_count_cells (grid : Buf) (n : Int) : Int :=
  forLoop n (fun i c =>
    forLoop n (fun j c => if grid (IDX i j n) > EMAX then c + 1 else c) c) 0

/-- `sum_energy(grid, n, m)` of `mpi-earthquake.c`: the returned `sum`.  The
function only reads `grid`. -/
def sum_energy (grid : Buf) (n m : Int) : ℚ :=
  forLoop m (fun i sum =>
    forLoop n (fun j sum => sum + grid (IDX i j n)) sum) 0

/-- The owned coordinates `(i, j)`, `0 ≤ i < m`, `0 ≤ j < n`, whose energy in
`grid` is strictly greater than `EMAX`. -/
def overThreshold (grid : Buf) (n m : Int) : Finset (Nat × Nat) :=
  (Finset.range m.toNat ×ˢ Finset.range n.toNat).filter
    (fun p => grid (IDX (p.1 : Int) (p.2 : Int) n) > EMAX)

/-- The halo exchange of one time step: the two `MPI_Sendrecv` calls in program
order, on all ranks. -/
def halo_exchange (n comm_size : Int) (t : Tables) (cur : Int → Buf) : Int → Buf :=
  fun r => sendrecv_up n comm_size t (fun r => sendrecv_down n t cur r) r

/-- Buffers that make every cell of every rank recognisable: the cell at offset
`p` of rank `r` holds `100 * r + p`. -/
def tagged : Int → Buf := fun r p => 100 * (r : ℚ) + (p : ℚ)

/-- The size `sizeof(float)` in bytes. -/
def sizeof_float : Int := 4

/-- What `main` has fixed when it allocates `cur` and `next`. -/
structure Config where
  /-- The grid side `n` used by the time loop. -/
  n : Int
  /-- The number of time steps. -/
  nsteps : Int
  /-- The byte count `size` passed to both `malloc` calls. -/
  size : Int
deriving DecidableEq

/-- The start of `main` (the same statements in both source files), up to the
computation of `size`.  `arg1` and `arg2` stand for `atoi(argv[1])` and
`atoi(argv[2])`.  The declaration `int m = n + 2 * HALO` is executed with the
initial value `n = 256`, before the command line is read; `none` is the early
`return EXIT_FAILURE`. -/
def main_config (argc : Int) (arg1 arg2 : Int) : Option Config :=
  let n : Int := 256
  let nsteps : Int := 2048
  let m : Int := n + 2 * HALO
  if argc > 4 then none
  else
    let nsteps := if argc > 1 then arg1 else nsteps
    let n := if argc > 2 then arg2 else n
    let size := m * m * sizeof_float
    some { n := n, nsteps := nsteps, size := size }

/-- A 3×3 grid whose centre `7` has two over-threshold neighbours, `(0, 1)` and
`(1, 0)`, both `10`. -/
def twoHot : Buf := fun p =>
  if p = IDX 1 1 3 then 7 else if p = IDX 0 1 3 ∨ p = IDX 1 0 3 then 10 else 0

/-- The coordinate `(i, j)` is a halo coordinate of the `n × n` domain: row
`-1`, row `n`, column `-1` or column `n`, within the range `-1 .. n`. -/
def isHalo (n i j : Int) : Prop :=
  -1 ≤ i ∧ i ≤ n ∧ -1 ≤ j ∧ j ≤ n ∧ (i = -1 ∨ i = n ∨ j = -1 ∨ j = n)

instance (n i j : Int) : Decidable (isHalo n i j) := by
  unfold isHalo; infer_instance

/-- The coordinates passed to `IDX` during a time step of `omp-earthquake.c`:
for every owned `(a, b)` (`0 ≤ a, b < n`) the cell itself, which
`increment_energy`, `count_cells`, `propagate_energy` and `average_energy`
access, and its four neighbours `(a, b-1)`, `(a, b+1)`, `(a-1, b)`, `(a+1, b)`,
which `propagate_energy` reads without any edge check. -/
def ompTouched (n i j : Int) : Prop :=
  ∃ a b : Int, 0 ≤ a ∧ a < n ∧ 0 ≤ b ∧ b < n ∧
    ((i, j) = (a, b) ∨ (i, j) = (a, b - 1) ∨ (i, j) = (a, b + 1) ∨
      (i, j) = (a - 1, b) ∨ (i, j) = (a + 1, b))

/-! ## Theorems -/

theorem increment_energy_eq (grid : Buf) (n m : Int) (delta : ℚ) :
    increment_energy grid n m delta = storeLoop (fun _ _ v => v + delta) grid n m := rfl

theorem propagate_energy_eq (cur next : Buf) (n m : Int) :
    propagate_energy cur next n m
      = storeLoop (fun i j _ => propagate_cell cur n i j) next n m := rfl

theorem omp_propagate_energy_eq (cur next : Buf) (n : Int) :
    omp_propagate_energy cur next n
      = storeLoop (fun i j _ => omp_propagate_cell cur n i j) next n n := rfl

theorem forLoop_zero {σ : Type} (body : Int → σ → σ) (s : σ) :
    forLoop 0 body s = s := rfl

theorem forLoop_succ {σ : Type} (k : Nat) (body : Int → σ → σ) (s : σ) :
    forLoop ((k : Int) + 1) body s = body k (forLoop k body s) := by
  have h : ((k : Int) + 1).toNat = k + 1 := by omega
  simp [forLoop, h, List.range_succ, List.foldl_append]

theorem forLoop_nonpos {σ : Type} (m : Int) (hm : m ≤ 0) (body : Int → σ → σ) (s : σ) :
    forLoop m body s = s := by
  have h : m.toNat = 0 := by omega
  simp [forLoop, h]

/-- On coordinates with columns in `[0, n)`, `IDX` is injective. -/
theorem IDX_inj {n i j i' j' : Int} (hj : 0 ≤ j) (hjn : j < n) (hj' : 0 ≤ j')
    (hjn' : j' < n) (h : IDX i j n = IDX i' j' n) : i = i' ∧ j = j' := by
  unfold IDX HALO at h
  have hi : i = i' := by
    rcases lt_trichotomy i i' with hlt | heq | hgt
    · exfalso
      have : (i' - i) * n ≥ 1 * n := by
        apply mul_le_mul_of_nonneg_right <;> omega
      nlinarith
    · exact heq
    · exfalso
      have : (i - i') * n ≥ 1 * n := by
        apply mul_le_mul_of_nonneg_right <;> omega
      nlinarith
  subst hi
  exact ⟨rfl, by linarith⟩

theorem storeLoop_eq (h : Int → Int → ℚ → ℚ) (g : Buf) (n m : Int) :
    storeLoop h g n m = forLoop m (fun i g => storeRow h n i n g) g := rfl

theorem IDX_col_inj {n i j j' : Int} (h : IDX i j n = IDX i j' n) : j = j' := by
  unfold IDX at h; linarith

theorem storeRow_other (h : Int → Int → ℚ → ℚ) (n i : Int) (g : Buf) (p : Int) :
    ∀ k : Nat, (∀ j : Int, 0 ≤ j → j < k → p ≠ IDX i j n) →
      storeRow h n i k g p = g p := by
  intro k
  induction k with
  | zero => intro _; rfl
  | succ k ih =>
    intro hp
    have hk : ((k + 1 : Nat) : Int) = (k : Int) + 1 := by push_cast; rfl
    rw [hk]
    unfold storeRow at ih ⊢
    rw [forLoop_succ]
    rw [Function.update_noteq (hp k (by omega) (by omega))]
    exact ih (fun j h0 hj => hp j h0 (by omega))

theorem storeRow_at (h : Int → Int → ℚ → ℚ) (n i : Int) (g : Buf) :
    ∀ k : Nat, ∀ j : Int, 0 ≤ j → j < k →
      storeRow h n i k g (IDX i j n) = h i j (g (IDX i j n)) := by
  intro k
  induction k with
  | zero => intro j h0 hj; exfalso; simp at hj; omega
  | succ k ih =>
    intro j h0 hj
    have hk : ((k + 1 : Nat) : Int) = (k : Int) + 1 := by push_cast; rfl
    rw [hk]
    have hrow : storeRow h n i ((k : Int) + 1) g
        = Function.update (storeRow h n i k g) (IDX i k n)
            (h i k (storeRow h n i k g (IDX i k n))) := by
      unfold storeRow; rw [forLoop_succ]
    rw [hrow]
    by_cases hjk : j = k
    · subst hjk
      rw [Function.update_same]
      rw [storeRow_other h n i g (IDX i (k : Int) n) k]
      intro j' _ hj' heq
      have := IDX_col_inj heq
      omega
    · have hne : IDX i j n ≠ IDX i k n := fun heq => hjk (IDX_col_inj heq)
      rw [Function.update_noteq hne]
      exact ih j h0 (by omega)

/-- A store loop leaves every offset that is not an owned cell unchanged. -/
theorem storeLoop_other (h : Int → Int → ℚ → ℚ) (g : Buf) (n m : Int) (p : Int)
    (hp : ∀ i j : Int, 0 ≤ i → i < m → 0 ≤ j → j < n → p ≠ IDX i j n) :
    storeLoop h g n m p = g p := by
  rw [storeLoop_eq]
  rcases le_or_lt m 0 with hm | hm
  · rw [forLoop_nonpos m hm]
  obtain ⟨k, rfl⟩ : ∃ k : Nat, m = k := ⟨m.toNat, by omega⟩
  clear hm
  induction k with
  | zero => rfl
  | succ k ih =>
    have hk : ((k + 1 : Nat) : Int) = (k : Int) + 1 := by push_cast; rfl
    rw [hk] at hp ⊢
    rw [forLoop_succ]
    rcases le_or_lt n 0 with hn | hn
    · have : storeRow h n k n (forLoop k (fun i g => storeRow h n i n g) g)
          = forLoop k (fun i g => storeRow h n i n g) g := by
        unfold storeRow; rw [forLoop_nonpos n hn]
      rw [this]
      exact ih (fun i j h0 hi hj0 hj => hp i j h0 (by omega) hj0 hj)
    obtain ⟨c, rfl⟩ : ∃ c : Nat, n = c := ⟨n.toNat, by omega⟩
    rw [storeRow_other h c k _ p c (fun j hj0 hj => hp k j (by omega) (by omega) hj0 hj)]
    exact ih (fun i j h0 hi hj0 hj => hp i j h0 (by omega) hj0 hj)

/-- A store loop gives every owned cell `(i, j)` the value `h i j v`, `v` being
the content of that cell before the loop: each owned cell is stored exactly
once. -/
theorem storeLoop_at (h : Int → Int → ℚ → ℚ) (g : Buf) (n m : Int) (i j : Int)
    (hi0 : 0 ≤ i) (hi : i < m) (hj0 : 0 ≤ j) (hj : j < n) :
    storeLoop h g n m (IDX i j n) = h i j (g (IDX i j n)) := by
  rw [storeLoop_eq]
  obtain ⟨k, rfl⟩ : ∃ k : Nat, m = k := ⟨m.toNat, by omega⟩
  obtain ⟨c, rfl⟩ : ∃ c : Nat, n = c := ⟨n.toNat, by omega⟩
  induction k with
  | zero => exfalso; simp at hi; omega
  | succ k ih =>
    have hk : ((k + 1 : Nat) : Int) = (k : Int) + 1 := by push_cast; rfl
    rw [hk] at hi ⊢
    rw [forLoop_succ]
    by_cases hik : i = k
    · subst hik
      rw [storeRow_at h c k _ c j hj0 hj]
      have := storeLoop_other h g c k (IDX (k : Int) j c)
        (fun i' j' _ hi' hj0' hj' heq => by
          have := (IDX_inj hj0 hj hj0' hj' heq).1
          omega)
      rw [storeLoop_eq] at this
      rw [this]
    · rw [storeRow_other h c k _ (IDX i j c) c
        (fun j' hj0' hj' heq => hik (IDX_inj hj0 hj hj0' hj' heq).1)]
      exact ih (by omega)

theorem propagate_cell_eq_release (cur : Buf) (n i j : Int) :
    propagate_cell cur n i j = release (gathered cur n i j) := rfl

theorem gathered_closed (cur : Buf) (n i j : Int)
    (hi0 : 0 ≤ i) (hi : i < n) (hj0 : 0 ≤ j) (hj : j < n) :
    gathered cur n i j
      = cur (IDX i j n) + (EMAX / 4) * (hotNeighbours cur n i j : ℚ) := by
  have e1 : inDomain n i (j - 1) ↔ 0 < j := by unfold inDomain; omega
  have e2 : inDomain n i (j + 1) ↔ j < n - 1 := by unfold inDomain; omega
  have e3 : inDomain n (i - 1) j ↔ 0 < i := by unfold inDomain; omega
  have e4 : inDomain n (i + 1) j ↔ i < n - 1 := by unfold inDomain; omega
  unfold gathered hotNeighbours hot FDELTA
  simp only [e1, e2, e3, e4]
  split_ifs <;> push_cast <;> ring

/-- Value stored by the edge-checked cell update, in closed form. -/
theorem propagate_cell_closed (cur : Buf) (n i j : Int)
    (hi0 : 0 ≤ i) (hi : i < n) (hj0 : 0 ≤ j) (hj : j < n) :
    propagate_cell cur n i j
      = release (cur (IDX i j n) + (EMAX / 4) * (hotNeighbours cur n i j : ℚ)) := by
  rw [propagate_cell_eq_release, gathered_closed cur n i j hi0 hi hj0 hj]

/-- Closed form of what the edge-checked `propagate_energy`, run on the whole
domain, stores in an owned cell. -/
theorem propagate_energy_owned (n : Int) (cur next : Buf)
    (i j : Int) (hi0 : 0 ≤ i) (hi : i < n) (hj0 : 0 ≤ j) (hj : j < n) :
    propagate_energy cur next n n (IDX i j n)
      = release (cur (IDX i j n) + (EMAX / 4) * (hotNeighbours cur n i j : ℚ)) := by
  rw [propagate_energy_eq, storeLoop_at _ _ _ _ _ _ hi0 hi hj0 hj]
  exact propagate_cell_closed cur n i j hi0 hi hj0 hj

theorem EMAX_pos : (0 : ℚ) < EMAX := by unfold EMAX; norm_num

/-- With a single over-threshold cell `c`, the indicator `hot` recognises
exactly `c`. -/
theorem hot_single (cur : Buf) (n ci cj : Int) (hc : inDomain n ci cj)
    (hv : cur (IDX ci cj n) > EMAX)
    (hx : ∀ i j : Int, inDomain n i j → (i, j) ≠ (ci, cj) →
      cur (IDX i j n) + EMAX / 4 ≤ EMAX) (a b : Int) :
    hot cur n a b = if (a, b) = (ci, cj) then 1 else 0 := by
  unfold hot
  by_cases hab : (a, b) = (ci, cj)
  · have ha : a = ci := congrArg Prod.fst hab
    have hb : b = cj := congrArg Prod.snd hab
    subst ha; subst hb
    simp [hc, hv]
  · rw [if_neg hab, if_neg]
    rintro ⟨hd, hgt⟩
    have := hx a b hd hab
    have := EMAX_pos
    linarith

theorem neighbour_count_single (i j ci cj : Int) :
    (if (i, j - 1) = (ci, cj) then 1 else 0) + (if (i, j + 1) = (ci, cj) then 1 else 0)
        + (if (i - 1, j) = (ci, cj) then 1 else 0) + (if (i + 1, j) = (ci, cj) then 1 else 0)
      = if axisNeighbour i j ci cj then 1 else 0 := by
  unfold axisNeighbour
  simp only [Prod.mk.injEq]
  split_ifs <;> omega

/-- Edge-checked variant (`mpi-earthquake.c`, one worker owning the whole
domain): with exactly one over-threshold cell `c` and every other cell at most
`EMAX - EMAX/4`, one propagation leaves `c` with `v - EMAX`, adds exactly
`EMAX/4` to each axis-neighbour of `c` and leaves every other cell unchanged. -/
theorem propagate_energy_single_source (n : Int) (cur next : Buf) (ci cj : Int)
    (hc : inDomain n ci cj) (hv : cur (IDX ci cj n) > EMAX)
    (hx : ∀ i j : Int, inDomain n i j → (i, j) ≠ (ci, cj) →
      cur (IDX i j n) + EMAX / 4 ≤ EMAX) :
    propagate_energy cur next n n (IDX ci cj n) = cur (IDX ci cj n) - EMAX ∧
    ∀ i j : Int, inDomain n i j → (i, j) ≠ (ci, cj) →
      propagate_energy cur next n n (IDX i j n)
        = if axisNeighbour i j ci cj then cur (IDX i j n) + EMAX / 4
          else cur (IDX i j n) := by
  have hpos := EMAX_pos
  have hcount : ∀ i j : Int, hotNeighbours cur n i j
      = if axisNeighbour i j ci cj then 1 else 0 := by
    intro i j
    unfold hotNeighbours
    simp only [hot_single cur n ci cj hc hv hx]
    exact neighbour_count_single i j ci cj
  constructor
  · obtain ⟨h1, h2, h3, h4⟩ := hc
    rw [propagate_energy_owned n cur next ci cj h1 h2 h3 h4, hcount]
    have hself : ¬ axisNeighbour ci cj ci cj := by unfold axisNeighbour; omega
    rw [if_neg hself]
    unfold release
    simp [hv]
  · intro i j hd hne
    have hle := hx i j hd hne
    obtain ⟨h1, h2, h3, h4⟩ := hd
    rw [propagate_energy_owned n cur next i j h1 h2 h3 h4, hcount]
    unfold release
    by_cases hax : axisNeighbour i j ci cj
    · rw [if_pos hax, if_pos hax]
      have : ¬ (cur (IDX i j n) + EMAX / 4 * ((1 : ℕ) : ℚ) > EMAX) := by
        push_cast; linarith
      rw [if_neg this]; push_cast; ring
    · rw [if_neg hax, if_neg hax]
      have : ¬ (cur (IDX i j n) + EMAX / 4 * ((0 : ℕ) : ℚ) > EMAX) := by
        push_cast; linarith
      rw [if_neg this]; push_cast; ring

/-- C1: for every grid side `n ≥ 1` and every grid `cur`, the edge-checked
`propagate_energy` run on the whole domain (`m = n` owned rows) stores in every
owned cell `(i, j)` of `next` the value `g (cur(i,j) + (EMAX/4) * k)`, where `k`
counts the axis-neighbours inside the domain whose energy is strictly above
`EMAX` and `g` subtracts `EMAX` once from a value above `EMAX`. -/
theorem C1_propagate_energy_whole_domain (n : Int) (_hn : 1 ≤ n) (cur next : Buf)
    (i j : Int) (hi0 : 0 ≤ i) (hi : i < n) (hj0 : 0 ≤ j) (hj : j < n) :
    propagate_energy cur next n n (IDX i j n)
      = release (cur (IDX i j n) + (EMAX / 4) * (hotNeighbours cur n i j : ℚ)) :=
  propagate_energy_owned n cur next i j hi0 hi hj0 hj

/-- Instance of C1 on the 3×3 grid with centre 10: the cell `(0, 1)`. -/
theorem C1_propagate_energy_whole_domain_witness :
    (1 : Int) ≤ 3 ∧
    propagate_energy (spike (IDX 1 1 3) 10) zeroBuf 3 3 (IDX 0 1 3)
      = release (spike (IDX 1 1 3) 10 (IDX 0 1 3)
          + (EMAX / 4) * (hotNeighbours (spike (IDX 1 1 3) 10) 3 0 1 : ℚ)) :=
  ⟨by decide, C1_propagate_energy_whole_domain 3 (by decide) (spike (IDX 1 1 3) 10) zeroBuf
    0 1 (by decide) (by decide) (by decide) (by decide)⟩

/-- The 3×3 example of the specification on the edge-checked variant: centre
`10`, every other cell `0`; after one propagation the four direct neighbours
hold `1`, the centre `6`, the corners `0`. -/
theorem propagate_energy_center3 :
    let nx := propagate_energy (spike (IDX 1 1 3) 10) zeroBuf 3 3
    nx (IDX 1 1 3) = 6 ∧
    nx (IDX 0 1 3) = 1 ∧ nx (IDX 1 0 3) = 1 ∧ nx (IDX 1 2 3) = 1 ∧ nx (IDX 2 1 3) = 1 ∧
    nx (IDX 0 0 3) = 0 ∧ nx (IDX 0 2 3) = 0 ∧ nx (IDX 2 0 3) = 0 ∧ nx (IDX 2 2 3) = 0 := by
  intro nx
  simp only [nx, propagate_energy_eq]
  refine ⟨?_, ?_, ?_, ?_, ?_, ?_, ?_, ?_, ?_⟩ <;>
  · rw [storeLoop_at _ _ _ _ _ _ (by decide) (by decide) (by decide) (by decide)]
    norm_num [propagate_cell, IDX, HALO, spike, EMAX, FDELTA]

/-- The same 3×3 example on the unchecked variant of `omp-earthquake.c`, every
other cell of the buffer holding `0`. -/
theorem omp_propagate_energy_center3 :
    let nx := omp_propagate_energy (spike (IDX 1 1 3) 10) zeroBuf 3
    nx (IDX 1 1 3) = 6 ∧
    nx (IDX 0 1 3) = 1 ∧ nx (IDX 1 0 3) = 1 ∧ nx (IDX 1 2 3) = 1 ∧ nx (IDX 2 1 3) = 1 ∧
    nx (IDX 0 0 3) = 0 ∧ nx (IDX 0 2 3) = 0 ∧ nx (IDX 2 0 3) = 0 ∧ nx (IDX 2 2 3) = 0 := by
  intro nx
  simp only [nx, omp_propagate_energy_eq]
  refine ⟨?_, ?_, ?_, ?_, ?_, ?_, ?_, ?_, ?_⟩ <;>
  · rw [storeLoop_at _ _ _ _ _ _ (by decide) (by decide) (by decide) (by decide)]
    norm_num [omp_propagate_cell, IDX, HALO, spike, EMAX, FDELTA]

/-- C2, failing input of the unchecked variant (`omp-earthquake.c`): on the 2×2
grid whose only non-zero cell is `(0, 1) = 10` (every other cell of the buffer
is `0`), one propagation stores `1 = EMAX/4` in the cell `(1, 0)`, which is not
an axis-neighbour of `(0, 1)`: its left-neighbour read `IDX(1, -1)` hits the
offset of `(0, 1)`.  The edge-checked variant stores `0` there. -/
theorem C2_omp_non_neighbour_gains :
    ¬ axisNeighbour 1 0 0 1 ∧
    IDX 1 (0 - 1) 2 = IDX 0 1 2 ∧
    spike (IDX 0 1 2) 10 (IDX 0 1 2) > EMAX ∧
    (∀ p : Int, p ≠ IDX 0 1 2 → spike (IDX 0 1 2) 10 p + EMAX / 4 ≤ EMAX) ∧
    omp_propagate_energy (spike (IDX 0 1 2) 10) zeroBuf 2 (IDX 1 0 2) = 1 ∧
    propagate_energy (spike (IDX 0 1 2) 10) zeroBuf 2 2 (IDX 1 0 2) = 0 := by
  refine ⟨by decide, by decide, ?_, ?_, ?_, ?_⟩
  · norm_num [spike, EMAX]
  · intro p hp
    simp only [spike, if_neg hp]
    norm_num [EMAX]
  · rw [omp_propagate_energy_eq,
      storeLoop_at _ _ _ _ _ _ (by decide) (by decide) (by decide) (by decide)]
    norm_num [omp_propagate_cell, IDX, HALO, spike, EMAX, FDELTA]
  · rw [propagate_energy_eq,
      storeLoop_at _ _ _ _ _ _ (by decide) (by decide) (by decide) (by decide)]
    norm_num [propagate_cell, IDX, HALO, spike, EMAX, FDELTA]

/-- C3, failing input: `n = 2`, `m = 1` (the last of two workers, which has no
neighbour below).  Two `cur` buffers that differ only at the bottom halo cell
`(1, 0)` make `propagate_energy` store different values in the owned cell
`(0, 0)`: the test `i < n - 1` lets the last owned row read the bottom halo. -/
theorem C3_last_worker_reads_bottom_halo :
    (∀ p : Int, p ≠ IDX 1 0 2 → spike (IDX 1 0 2) 10 p = zeroBuf p) ∧
    propagate_energy zeroBuf zeroBuf 2 1 (IDX 0 0 2) = 0 ∧
    propagate_energy (spike (IDX 1 0 2) 10) zeroBuf 2 1 (IDX 0 0 2) = 1 := by
  refine ⟨?_, ?_, ?_⟩
  · intro p hp
    simp only [spike, if_neg hp, zeroBuf]
  · rw [propagate_energy_eq,
      storeLoop_at _ _ _ _ _ _ (by decide) (by decide) (by decide) (by decide)]
    norm_num [propagate_cell, IDX, HALO, zeroBuf, EMAX, FDELTA]
  · rw [propagate_energy_eq,
      storeLoop_at _ _ _ _ _ _ (by decide) (by decide) (by decide) (by decide)]
    norm_num [propagate_cell, IDX, HALO, spike, EMAX, FDELTA]

/-- State of the partitioner loop after `k` iterations: the entries `0 .. k` of
both tables hold their final values, every other entry is untouched. -/
theorem partition_loop (n W : Int) (s0 d0 : IntArr) (k : Nat) :
    (∀ i : Int, 0 ≤ i → i ≤ k →
      (forLoop (k : Int) (partition_body_exact n W) (partition_init n W s0 d0)).sendcnts i
        = Int.tdiv ((i + 1) * n) W - Int.tdiv (i * n) W ∧
      (forLoop (k : Int) (partition_body_exact n W) (partition_init n W s0 d0)).displ i
        = Int.tdiv (i * n) W) ∧
    (∀ i : Int, (i < 0 ∨ (k : Int) < i) →
      (forLoop (k : Int) (partition_body_exact n W) (partition_init n W s0 d0)).sendcnts i = s0 i ∧
      (forLoop (k : Int) (partition_body_exact n W) (partition_init n W s0 d0)).displ i = d0 i) := by
  induction k with
  | zero =>
    have hz : ((0 : Nat) : Int) = 0 := rfl
    rw [hz, forLoop_zero]
    constructor
    · intro i h0 hk
      have hi : i = 0 := by omega
      subst hi
      simp [partition_init]
    · intro i hi
      have hne : i ≠ 0 := by omega
      simp [partition_init, Function.update_noteq hne]
  | succ k ih =>
    have hk : ((k + 1 : Nat) : Int) = (k : Int) + 1 := by push_cast; rfl
    rw [hk, forLoop_succ]
    obtain ⟨ih1, ih2⟩ := ih
    generalize forLoop (k : Int) (partition_body_exact n W) (partition_init n W s0 d0) = t at ih1 ih2 ⊢
    constructor
    · intro i h0 hik
      by_cases hi : i = (k : Int) + 1
      · subst hi
        obtain ⟨hs, hd⟩ := ih1 k (by omega) (by omega)
        simp only [partition_body_exact, Function.update_same, add_sub_cancel_right]
        refine ⟨trivial, ?_⟩
        rw [hs, hd]; ring
      · simp only [partition_body_exact, Function.update_noteq hi]
        exact ih1 i h0 (by omega)
    · intro i hi
      have hne : i ≠ (k : Int) + 1 := by omega
      simp only [partition_body_exact, Function.update_noteq hne]
      exact ih2 i (by omega)

/-- Closed form of the tables on the ranks `0 .. W-1`. -/
theorem partition_closed (n : Int) (W : Nat) (hW : 1 ≤ W) (s0 d0 : IntArr)
    (i : Int) (h0 : 0 ≤ i) (hi : i < W) :
    (partition_exact n W s0 d0).sendcnts i = Int.tdiv ((i + 1) * n) W - Int.tdiv (i * n) W ∧
    (partition_exact n W s0 d0).displ i = Int.tdiv (i * n) W := by
  have hW' : ((W : Int) - 1) = ((W - 1 : Nat) : Int) := by omega
  unfold partition_exact
  rw [hW']
  exact (partition_loop n W s0 d0 (W - 1)).1 i h0 (by omega)

/-- Entries outside the ranks `0 .. W-1` keep the content the array had when
it was allocated. -/
theorem partition_outside (n : Int) (W : Nat) (hW : 1 ≤ W) (s0 d0 : IntArr)
    (i : Int) (hi : i < 0 ∨ (W : Int) ≤ i) :
    (partition_exact n W s0 d0).sendcnts i = s0 i ∧ (partition_exact n W s0 d0).displ i = d0 i := by
  have hW' : ((W : Int) - 1) = ((W - 1 : Nat) : Int) := by omega
  unfold partition_exact
  rw [hW']
  exact (partition_loop n W s0 d0 (W - 1)).2 i (by omega)

/-- For a non-negative grid side the truncating C division of the partitioner
is floor division. -/
theorem tdiv_mul_eq (n : Int) (hn : 0 ≤ n) (W : Nat) (i : Int) (h0 : 0 ≤ i) :
    Int.tdiv (i * n) W = (i * n) / (W : Int) :=
  Int.tdiv_eq_ediv (mul_nonneg h0 hn) (Int.natCast_nonneg W)

/-- A value inside the `int` range is not changed by the wrap-around. -/
theorem wrap32_of_range (x : Int) (h0 : -2147483648 ≤ x) (h1 : x ≤ 2147483647) :
    wrap32 x = x := by
  unfold wrap32; omega

/-- When `W * n` fits an `int`, so do every product `i * n` with `i ≤ W` and
its quotient by `W`. -/
theorem boundary_in_range (n : Int) (hn : 0 ≤ n) (W : Nat) (hb : (W : Int) * n ≤ INT_MAX)
    (i : Int) (h0 : 0 ≤ i) (hi : i ≤ W) :
    0 ≤ i * n ∧ i * n ≤ 2147483647 ∧
    0 ≤ Int.tdiv (i * n) W ∧ Int.tdiv (i * n) W ≤ 2147483647 := by
  unfold INT_MAX at hb
  have h1 : 0 ≤ i * n := mul_nonneg h0 hn
  have h2 : i * n ≤ (W : Int) * n := mul_le_mul_of_nonneg_right hi hn
  rw [tdiv_mul_eq n hn W i h0]
  have h3 : 0 ≤ (i * n) / (W : Int) := Int.ediv_nonneg h1 (Int.natCast_nonneg W)
  have h4 : (i * n) / (W : Int) ≤ i * n := Int.ediv_le_self _ h1
  refine ⟨h1, by omega, h3, by omega⟩

/-- On a state whose entry `k` has its exact value, an iteration of the 32-bit
loop body is the exact iteration, as long as `W * n` fits an `int`. -/
theorem partition_body_eq (n : Int) (hn : 0 ≤ n) (W : Nat) (hb : (W : Int) * n ≤ INT_MAX)
    (k : Nat) (hk : (k : Int) + 2 ≤ W) (t : Tables)
    (hs : t.sendcnts k = Int.tdiv (((k : Int) + 1) * n) W - Int.tdiv ((k : Int) * n) W)
    (hd : t.displ k = Int.tdiv ((k : Int) * n) W) :
    partition_body n W k t = partition_body_exact n W k t := by
  obtain ⟨a1, a2, a3, a4⟩ := boundary_in_range n hn W hb k (by omega) (by omega)
  obtain ⟨b1, b2, b3, b4⟩ := boundary_in_range n hn W hb ((k : Int) + 1) (by omega) (by omega)
  obtain ⟨c1, c2, c3, c4⟩ :=
    boundary_in_range n hn W hb ((k : Int) + 1 + 1) (by omega) (by omega)
  unfold partition_body partition_body_exact
  simp only [add_sub_cancel_right]
  rw [wrap32_of_range (((k : Int) + 1 + 1) * n) (by omega) c2,
    wrap32_of_range (((k : Int) + 1) * n) (by omega) b2,
    wrap32_of_range (Int.tdiv (((k : Int) + 1 + 1) * n) W - Int.tdiv (((k : Int) + 1) * n) W)
      (by omega) (by omega),
    wrap32_of_range (t.displ k + t.sendcnts k) (by rw [hs, hd]; omega) (by rw [hs, hd]; omega)]

/-- When `W * n` fits an `int`, the 32-bit partitioner computes exactly the
tables of the partitioner without overflow. -/
theorem partition_eq_exact (n : Int) (hn : 0 ≤ n) (W : Nat) (hW : 1 ≤ W)
    (hb : (W : Int) * n ≤ INT_MAX) (s0 d0 : IntArr) :
    partition n W s0 d0 = partition_exact n W s0 d0 := by
  have key : ∀ k : Nat, (k : Int) + 1 ≤ W →
      forLoop (k : Int) (partition_body n W) (partition_init n W s0 d0)
        = forLoop (k : Int) (partition_body_exact n W) (partition_init n W s0 d0) := by
    intro k
    induction k with
    | zero => intro _; rfl
    | succ k ih =>
      intro hk
      have hk' : ((k + 1 : Nat) : Int) = (k : Int) + 1 := by push_cast; rfl
      rw [hk'] at hk ⊢
      rw [forLoop_succ, forLoop_succ, ih (by omega)]
      obtain ⟨hs, hd⟩ := (partition_loop n W s0 d0 k).1 k (by omega) le_rfl
      exact partition_body_eq n hn W hb k (by omega) _ hs hd
  have hW' : ((W : Int) - 1) = ((W - 1 : Nat) : Int) := by omega
  unfold partition partition_exact
  rw [hW']
  exact key (W - 1) (by omega)

/-- With two workers the partitioner loop runs once. -/
theorem partition_two (n : Int) (s0 d0 : IntArr) :
    partition n 2 s0 d0 = partition_body n 2 0 (partition_init n 2 s0 d0) := rfl

/-- The tables the 32-bit partitioner computes for `n = 1500000000` rows and
two workers: the product `2 * n` does not fit an `int`. -/
theorem partition_overflow (s0 d0 : IntArr) :
    (partition 1500000000 2 s0 d0).sendcnts 0 = 750000000 ∧
    (partition 1500000000 2 s0 d0).sendcnts 1 = -1397483648 ∧
    (partition 1500000000 2 s0 d0).displ 0 = 0 ∧
    (partition 1500000000 2 s0 d0).displ 1 = 750000000 := by
  rw [partition_two]
  have e0 : (0 : Int) + 1 - 1 = 0 := rfl
  have e1 : (0 : Int) + 1 = 1 := rfl
  have e2 : (1 : Int) - 1 = 0 := rfl
  simp only [partition_body, partition_init, e0, e1, e2]
  refine ⟨?_, ?_, ?_, ?_⟩
  · rw [Function.update_noteq (by decide), Function.update_same]; decide
  · rw [Function.update_same]; decide
  · rw [Function.update_noteq (by decide), Function.update_same]
  · simp only [Function.update_same]; decide

/-- The sum of the first `k` row counts telescopes to `floor(k*n/W)`. -/
theorem sendcnts_prefix_sum (n : Int) (W : Nat) (hW : 1 ≤ W) (s0 d0 : IntArr)
    (k : Nat) (hk : k ≤ W) :
    ∑ i in Finset.range k, (partition_exact n W s0 d0).sendcnts (i : Int)
      = Int.tdiv ((k : Int) * n) W := by
  induction k with
  | zero => simp
  | succ k ih =>
    rw [Finset.sum_range_succ, ih (by omega),
      (partition_closed n W hW s0 d0 k (by omega) (by omega)).1]
    push_cast; ring

/-- C5 (amended): for every `n ≥ 1` and every worker count `W ≥ 1` such that
`W * n` fits a 32-bit `int` (`W * n ≤ INT_MAX`, so that no product `(i+1) * n`
overflows), the row counts `sendcnts[0 .. W-1]` computed by the partitioner sum
to exactly `n`. -/
theorem C5_sendcnts_sum (n : Int) (hn : 1 ≤ n) (W : Nat) (hW : 1 ≤ W)
    (hb : (W : Int) * n ≤ INT_MAX) (s0 d0 : IntArr) :
    ∑ i in Finset.range W, (partition n W s0 d0).sendcnts (i : Int) = n := by
  rw [partition_eq_exact n (by omega) W hW hb, sendcnts_prefix_sum n W hW s0 d0 W le_rfl]
  exact Int.mul_tdiv_cancel_left n (by omega)

/-- Instance of C5: `n = 10` rows over `W = 4` workers (sizes 2, 3, 2, 3). -/
theorem C5_sendcnts_sum_witness :
    (1 : Int) ≤ 10 ∧ 1 ≤ 4 ∧ ((4 : Nat) : Int) * 10 ≤ INT_MAX ∧
    ∑ i in Finset.range 4, (partition 10 (4 : Nat) zeroArr zeroArr).sendcnts (i : Int) = 10 :=
  ⟨by decide, by decide, by decide,
    C5_sendcnts_sum 10 (by decide) 4 (by decide) (by decide) zeroArr zeroArr⟩

/-- C5 as stated fails: for `n = 1500000000` rows and `W = 2` workers the
product `2 * n` overflows the 32-bit `int`, the partitioner computes the row
counts `750000000` and `-1397483648`, and their sum is not `n`. -/
theorem C5_sendcnts_sum_overflow :
    (1 : Int) ≤ 1500000000 ∧ 1 ≤ 2 ∧
    ¬ (∑ i in Finset.range 2,
        (partition 1500000000 (2 : Nat) zeroArr zeroArr).sendcnts (i : Int) = 1500000000) := by
  obtain ⟨h0, h1, _, _⟩ := partition_overflow zeroArr zeroArr
  refine ⟨by decide, by decide, ?_⟩
  simp only [Nat.cast_ofNat, Finset.sum_range_succ, Finset.sum_range_zero, Nat.cast_zero,
    Nat.cast_one, zero_add, h0, h1]
  decide

/-- End of the row range of rank `i`: `displ[i] + sendcnts[i] = floor((i+1)*n/W)`. -/
theorem partition_range_end (n : Int) (hn : 0 ≤ n) (W : Nat) (hW : 1 ≤ W) (s0 d0 : IntArr)
    (i : Int) (h0 : 0 ≤ i) (hi : i < W) :
    (partition_exact n W s0 d0).displ i + (partition_exact n W s0 d0).sendcnts i
      = ((i + 1) * n) / (W : Int) := by
  obtain ⟨hs, hd⟩ := partition_closed n W hW s0 d0 i h0 hi
  rw [hs, hd, tdiv_mul_eq n hn W (i + 1) (by omega)]
  ring

/-- Start of the row range of rank `i`: `displ[i] = floor(i*n/W)`. -/
theorem partition_range_start (n : Int) (hn : 0 ≤ n) (W : Nat) (hW : 1 ≤ W) (s0 d0 : IntArr)
    (i : Int) (h0 : 0 ≤ i) (hi : i < W) :
    (partition_exact n W s0 d0).displ i = (i * n) / (W : Int) := by
  rw [(partition_closed n W hW s0 d0 i h0 hi).2, tdiv_mul_eq n hn W i h0]

/-- The boundaries `floor(i*n/W)` are non-decreasing in `i`. -/
theorem boundary_mono (n : Int) (hn : 0 ≤ n) (W : Nat) (hW : 1 ≤ W) (i i' : Int)
    (h : i ≤ i') : (i * n) / (W : Int) ≤ (i' * n) / (W : Int) :=
  Int.ediv_le_ediv (by omega) (mul_le_mul_of_nonneg_right h hn)

/-- Every row below the `k`-th boundary lies between two consecutive
boundaries. -/
theorem boundary_locate (n : Int) (W : Nat) (x : Int) (hx : 0 ≤ x) (k : Nat)
    (hk : x < ((k : Int) * n) / (W : Int)) :
    ∃ i : Int, 0 ≤ i ∧ i < k ∧ (i * n) / (W : Int) ≤ x ∧ x < ((i + 1) * n) / (W : Int) := by
  induction k with
  | zero => exfalso; simp at hk; omega
  | succ k ih =>
    by_cases hlt : x < ((k : Int) * n) / (W : Int)
    · obtain ⟨i, h0, hi, h1, h2⟩ := ih hlt
      exact ⟨i, h0, by push_cast; omega, h1, h2⟩
    · refine ⟨k, by omega, by push_cast; omega, by omega, ?_⟩
      have hk' : ((k + 1 : Nat) : Int) = (k : Int) + 1 := by push_cast; rfl
      rw [hk'] at hk
      exact hk

/-- C6 (amended): for every `n ≥ 1` and `W ≥ 1` such that `W * n` fits a 32-bit
`int` (`W * n ≤ INT_MAX`) the partitions are contiguous,
non-overlapping and ordered by rank: `displ[0] = 0`,
`displ[i+1] = displ[i] + sendcnts[i]` for `i < W-1`, `displ[i] = floor(i*n/W)`
for every rank, `displ[W-1] + sendcnts[W-1] = n`, and every row of `[0, n)`
lies in the range `[displ[i], displ[i] + sendcnts[i])` of exactly one rank. -/
theorem C6_partition_contiguous (n : Int) (hn : 1 ≤ n) (W : Nat) (hW : 1 ≤ W)
    (hb : (W : Int) * n ≤ INT_MAX) (s0 d0 : IntArr) :
    (partition n W s0 d0).displ 0 = 0 ∧
    (∀ i : Int, 0 ≤ i → i < (W : Int) - 1 →
      (partition n W s0 d0).displ (i + 1)
        = (partition n W s0 d0).displ i + (partition n W s0 d0).sendcnts i) ∧
    (∀ i : Int, 0 ≤ i → i < W →
      (partition n W s0 d0).displ i = ⌊((i * n : Int) : ℚ) / (W : ℚ)⌋) ∧
    (partition n W s0 d0).displ ((W : Int) - 1)
      + (partition n W s0 d0).sendcnts ((W : Int) - 1) = n ∧
    (∀ x : Int, 0 ≤ x → x < n →
      ∃! i : Int, (0 ≤ i ∧ i < W) ∧ (partition n W s0 d0).displ i ≤ x ∧
        x < (partition n W s0 d0).displ i + (partition n W s0 d0).sendcnts i) := by
  have hn0 : 0 ≤ n := by omega
  have hWn : ((W : Int) * n) / (W : Int) = n := Int.mul_ediv_cancel_left n (by omega)
  rw [partition_eq_exact n hn0 W hW hb s0 d0]
  refine ⟨?_, ?_, ?_, ?_, ?_⟩
  · rw [partition_range_start n hn0 W hW s0 d0 0 le_rfl (by omega)]; simp
  · intro i h0 hi
    rw [partition_range_end n hn0 W hW s0 d0 i h0 (by omega),
      partition_range_start n hn0 W hW s0 d0 (i + 1) (by omega) (by omega)]
  · intro i h0 hi
    rw [partition_range_start n hn0 W hW s0 d0 i h0 hi, Rat.floor_intCast_div_natCast]
  · rw [partition_range_end n hn0 W hW s0 d0 _ (by omega) (by omega)]
    have : ((W : Int) - 1 + 1) = W := by ring
    rw [this, hWn]
  · intro x hx0 hxn
    obtain ⟨i, h0, hi, h1, h2⟩ := boundary_locate n W x hx0 W (by rw [hWn]; exact hxn)
    refine ⟨i, ⟨⟨h0, hi⟩, ?_, ?_⟩, ?_⟩
    · rw [partition_range_start n hn0 W hW s0 d0 i h0 hi]; exact h1
    · rw [partition_range_end n hn0 W hW s0 d0 i h0 hi]; exact h2
    · rintro i' ⟨⟨h0', hi'⟩, h1', h2'⟩
      rw [partition_range_start n hn0 W hW s0 d0 i' h0' hi'] at h1'
      rw [partition_range_end n hn0 W hW s0 d0 i' h0' hi'] at h2'
      rcases lt_trichotomy i' i with hlt | heq | hgt
      · exfalso
        have := boundary_mono n hn0 W hW (i' + 1) i (by omega)
        omega
      · exact heq
      · exfalso
        have := boundary_mono n hn0 W hW (i + 1) i' (by omega)
        omega

/-- Instance of C6: `n = 10` rows over `W = 4` workers. -/
theorem C6_partition_contiguous_witness :
    (1 : Int) ≤ 10 ∧ 1 ≤ 4 ∧ ((4 : Nat) : Int) * 10 ≤ INT_MAX ∧
    (partition 10 (4 : Nat) zeroArr zeroArr).displ 0 = 0 ∧
    (∀ i : Int, 0 ≤ i → i < ((4 : Nat) : Int) - 1 →
      (partition 10 (4 : Nat) zeroArr zeroArr).displ (i + 1)
        = (partition 10 (4 : Nat) zeroArr zeroArr).displ i
          + (partition 10 (4 : Nat) zeroArr zeroArr).sendcnts i) ∧
    (∀ i : Int, 0 ≤ i → i < (4 : Nat) →
      (partition 10 (4 : Nat) zeroArr zeroArr).displ i
        = ⌊((i * 10 : Int) : ℚ) / ((4 : Nat) : ℚ)⌋) ∧
    (partition 10 (4 : Nat) zeroArr zeroArr).displ (((4 : Nat) : Int) - 1)
      + (partition 10 (4 : Nat) zeroArr zeroArr).sendcnts (((4 : Nat) : Int) - 1) = 10 ∧
    (∀ x : Int, 0 ≤ x → x < 10 →
      ∃! i : Int, (0 ≤ i ∧ i < (4 : Nat)) ∧
        (partition 10 (4 : Nat) zeroArr zeroArr).displ i ≤ x ∧
        x < (partition 10 (4 : Nat) zeroArr zeroArr).displ i
          + (partition 10 (4 : Nat) zeroArr zeroArr).sendcnts i) :=
  ⟨by decide, by decide, by decide,
    C6_partition_contiguous 10 (by decide) 4 (by decide) (by decide) zeroArr zeroArr⟩

/-- C6 as stated fails: for `n = 1500000000` rows and `W = 2` workers the
product `2 * n` overflows the 32-bit `int`, and the range of the last rank ends
at `displ[1] + sendcnts[1] = -647483648` instead of `n`. -/
theorem C6_partition_contiguous_overflow :
    (1 : Int) ≤ 1500000000 ∧ 1 ≤ 2 ∧
    (partition 1500000000 (2 : Nat) zeroArr zeroArr).displ (((2 : Nat) : Int) - 1)
      + (partition 1500000000 (2 : Nat) zeroArr zeroArr).sendcnts (((2 : Nat) : Int) - 1)
      = -647483648 ∧
    ¬ ((partition 1500000000 (2 : Nat) zeroArr zeroArr).displ (((2 : Nat) : Int) - 1)
      + (partition 1500000000 (2 : Nat) zeroArr zeroArr).sendcnts (((2 : Nat) : Int) - 1)
      = 1500000000) := by
  obtain ⟨_, h1, _, h3⟩ := partition_overflow zeroArr zeroArr
  have e : ((2 : Nat) : Int) - 1 = 1 := rfl
  simp only [Nat.cast_ofNat] at e ⊢
  rw [e, h1, h3]
  refine ⟨by decide, by decide, by decide, by decide⟩


/-- Each row count is `floor(n/W)` or `floor(n/W) + 1`. -/
theorem sendcnts_bounds (n : Int) (hn : 0 ≤ n) (W : Nat) (hW : 1 ≤ W) (s0 d0 : IntArr)
    (i : Int) (h0 : 0 ≤ i) (hi : i < W) :
    n / (W : Int) ≤ (partition_exact n W s0 d0).sendcnts i ∧
    (partition_exact n W s0 d0).sendcnts i ≤ n / (W : Int) + 1 := by
  have hWpos : (0 : Int) < W := by omega
  have hWne : (W : Int) ≠ 0 := by omega
  rw [(partition_closed n W hW s0 d0 i h0 hi).1, tdiv_mul_eq n hn W (i + 1) (by omega),
    tdiv_mul_eq n hn W i h0]
  have hsplit : (i + 1) * n = i * n + n := by ring
  rw [hsplit]
  have a1 := Int.ediv_mul_le (i * n) hWne
  have a2 := Int.lt_ediv_add_one_mul_self (i * n) hWpos
  have b1 := Int.ediv_mul_le n hWne
  have b2 := Int.lt_ediv_add_one_mul_self n hWpos
  have c1 := Int.ediv_mul_le (i * n + n) hWne
  have c2 := Int.lt_ediv_add_one_mul_self (i * n + n) hWpos
  generalize (i * n) / (W : Int) = x at a1 a2 ⊢
  generalize n / (W : Int) = q at b1 b2 ⊢
  generalize (i * n + n) / (W : Int) = y at c1 c2 ⊢
  generalize i * n = a at a1 a2 c1 c2
  constructor
  · have h : (x + q) * (W : Int) < (y + 1) * (W : Int) := by nlinarith
    have := lt_of_mul_lt_mul_right h (le_of_lt hWpos)
    omega
  · have h : y * (W : Int) < (x + q + 2) * (W : Int) := by nlinarith
    have := lt_of_mul_lt_mul_right h (le_of_lt hWpos)
    omega

/-- C7 (amended): for every `n ≥ 1` and every `W ≥ 1` such that `W * n` fits a
32-bit `int` (`W * n ≤ INT_MAX`), and every two ranks `i, j < W`, the partition
sizes differ by at most one. -/
theorem C7_sendcnts_balanced (n : Int) (hn : 1 ≤ n) (W : Nat) (hW : 1 ≤ W)
    (hb : (W : Int) * n ≤ INT_MAX) (s0 d0 : IntArr)
    (i j : Int) (hi0 : 0 ≤ i) (hi : i < W) (hj0 : 0 ≤ j) (hj : j < W) :
    |(partition n W s0 d0).sendcnts i - (partition n W s0 d0).sendcnts j| ≤ 1 := by
  rw [partition_eq_exact n (by omega) W hW hb s0 d0]
  obtain ⟨a1, a2⟩ := sendcnts_bounds n (by omega) W hW s0 d0 i hi0 hi
  obtain ⟨b1, b2⟩ := sendcnts_bounds n (by omega) W hW s0 d0 j hj0 hj
  rw [abs_le]
  constructor <;> omega

/-- Instance of C7: `n = 10`, `W = 4`, ranks `1` and `2` (sizes 3 and 2). -/
theorem C7_sendcnts_balanced_witness :
    (1 : Int) ≤ 10 ∧ 1 ≤ 4 ∧ ((4 : Nat) : Int) * 10 ≤ INT_MAX ∧
    |(partition 10 (4 : Nat) zeroArr zeroArr).sendcnts 1
      - (partition 10 (4 : Nat) zeroArr zeroArr).sendcnts 2| ≤ 1 :=
  ⟨by decide, by decide, by decide,
    C7_sendcnts_balanced 10 (by decide) 4 (by decide) (by decide) zeroArr zeroArr 1 2
      (by decide) (by decide) (by decide) (by decide)⟩

/-- C7 as stated fails: for `n = 1500000000` rows and `W = 2` workers the
product `2 * n` overflows the 32-bit `int`, and the two row counts,
`750000000` and `-1397483648`, differ by `2147483648`. -/
theorem C7_sendcnts_balanced_overflow :
    (1 : Int) ≤ 1500000000 ∧ 1 ≤ 2 ∧
    ¬ (|(partition 1500000000 (2 : Nat) zeroArr zeroArr).sendcnts 0
      - (partition 1500000000 (2 : Nat) zeroArr zeroArr).sendcnts 1| ≤ 1) := by
  obtain ⟨h0, h1, _, _⟩ := partition_overflow zeroArr zeroArr
  simp only [Nat.cast_ofNat]
  rw [h0, h1]
  refine ⟨by decide, by decide, by decide⟩


/-- C8: for `W = 1` and every `n ≥ 1` the partitioner yields the single
partition with start `0` and row count `n`. -/
theorem C8_single_worker_partition (n : Int) (_hn : 1 ≤ n) (s0 d0 : IntArr) :
    (partition n 1 s0 d0).displ 0 = 0 ∧ (partition n 1 s0 d0).sendcnts 0 = n := by
  have h : partition n 1 s0 d0 = partition_init n 1 s0 d0 := by
    unfold partition
    exact forLoop_nonpos _ (by decide) _ _
  rw [h]
  simp [partition_init]

/-- Instance of C8: `n = 256` (the default grid side). -/
theorem C8_single_worker_partition_witness :
    (1 : Int) ≤ 256 ∧ (partition 256 1 zeroArr zeroArr).displ 0 = 0 ∧
    (partition 256 1 zeroArr zeroArr).sendcnts 0 = 256 :=
  ⟨by decide, C8_single_worker_partition 256 (by decide) zeroArr zeroArr⟩

/-- The part of the frame property that the code has: the halo rows `-1` and
`m`, at the columns `0 .. n-1`, are not changed by `increment_energy`. -/
theorem increment_energy_halo_rows (n m : Int) (grid : Buf) (d : ℚ) (j : Int)
    (hj0 : 0 ≤ j) (hj : j < n) :
    increment_energy grid n m d (IDX (-1) j n) = grid (IDX (-1) j n) ∧
    increment_energy grid n m d (IDX m j n) = grid (IDX m j n) := by
  rw [increment_energy_eq]
  constructor
  · apply storeLoop_other
    intro i' j' hi0' _ hj0' hj' heq
    have := (IDX_inj hj0 hj hj0' hj' heq).1
    omega
  · apply storeLoop_other
    intro i' j' _ hi' hj0' hj' heq
    have := (IDX_inj hj0 hj hj0' hj' heq).1
    omega

/-- C10, failing input: `n = 2`, `m = 2`, `d = 1`, grid all zero.  The halo
coordinate `(1, -1)` (column `-1`) is mapped by `IDX` to the offset of the owned
cell `(0, 1)`, so the value read through `IDX` at that halo coordinate is `0`
before `increment_energy` and `1` after it. -/
theorem C10_halo_column_incremented :
    IDX 1 (-1) 2 = IDX 0 1 2 ∧
    zeroBuf (IDX 1 (-1) 2) = 0 ∧
    increment_energy zeroBuf 2 2 1 (IDX 1 (-1) 2) = 1 := by
  refine ⟨by decide, rfl, ?_⟩
  have h : IDX 1 (-1) 2 = IDX 0 1 2 := by decide
  rw [h, increment_energy_eq,
    storeLoop_at _ _ _ _ _ _ (by decide) (by decide) (by decide) (by decide)]
  norm_num [zeroBuf]

theorem forLoop_one {σ : Type} (body : Int → σ → σ) (s : σ) :
    forLoop 1 body s = body 0 s := rfl

/-- `propagate_energy` stores the cell update in every owned cell. -/
theorem propagate_energy_at (cur next : Buf) (n m i j : Int)
    (hi0 : 0 ≤ i) (hi : i < m) (hj0 : 0 ≤ j) (hj : j < n) :
    propagate_energy cur next n m (IDX i j n) = propagate_cell cur n i j := by
  rw [propagate_energy_eq, storeLoop_at _ _ _ _ _ _ hi0 hi hj0 hj]

/-- `increment_energy` adds `delta` to every owned cell. -/
theorem increment_energy_at (grid : Buf) (n m : Int) (d : ℚ) (i j : Int)
    (hi0 : 0 ≤ i) (hi : i < m) (hj0 : 0 ≤ j) (hj : j < n) :
    increment_energy grid n m d (IDX i j n) = grid (IDX i j n) + d := by
  rw [increment_energy_eq, storeLoop_at _ _ _ _ _ _ hi0 hi hj0 hj]

/-- `setup` stores the drawn value in every cell of the domain. -/
theorem setup_at (grid : Buf) (n : Int) (vals : Int → Int → ℚ) (i j : Int)
    (hi0 : 0 ≤ i) (hi : i < n) (hj0 : 0 ≤ j) (hj : j < n) :
    setup grid n vals (IDX i j n) = vals i j := by
  have h : setup grid n vals = storeLoop (fun i j _ => vals i j) grid n n := rfl
  rw [h, storeLoop_at _ _ _ _ _ _ hi0 hi hj0 hj]

/-- With a single worker the partitioner loop does not run. -/
theorem partition_one (n : Int) (s0 d0 : IntArr) :
    partition n 1 s0 d0 = partition_init n 1 s0 d0 := by
  unfold partition
  exact forLoop_nonpos _ (by decide) _ _

/-- The tables for `n = 3` rows over three workers: one row each. -/
theorem partition_3_3 (s0 d0 : IntArr) (i : Int) (h0 : 0 ≤ i) (h3 : i < 3) :
    (partition 3 3 s0 d0).sendcnts i = 1 ∧ (partition 3 3 s0 d0).displ i = i := by
  have he := partition_eq_exact 3 (by decide) 3 (by decide) (by decide) s0 d0
  have h := partition_closed 3 3 (by decide) s0 d0 i h0 (by simpa using h3)
  simp only [Nat.cast_ofNat] at h he
  rw [he]
  rw [Int.mul_tdiv_cancel _ (by decide), Int.mul_tdiv_cancel _ (by decide)] at h
  exact ⟨by rw [h.1]; ring, h.2⟩

/-- State of one rank after one time step, unfolded. -/
theorem mpi_main_one_step (n comm_size : Int) (s0 d0 : IntArr) (memC memN : Int → Buf)
    (vals : Int → Int → ℚ) (r : Int) :
    (mpi_main n comm_size 1 s0 d0 memC memN vals r).cur
      = propagate_energy
          (sendrecv_up n comm_size (partition n comm_size s0 d0)
            (fun r => sendrecv_down n (partition n comm_size s0 d0)
              (fun r => increment_energy
                (scatter n (partition n comm_size s0 d0)
                  (fun r => if r = 0 then setup (memC r) n vals else memC r) r)
                n ((partition n comm_size s0 d0).sendcnts r) EDELTA) r) r)
          (memN r) n ((partition n comm_size s0 d0).sendcnts r) := rfl

/-- C4, failing input: `n = 3`, `nsteps = 1`, initial grid `10` in the cell
`(0, 0)` and `0` elsewhere.  With `W = 3` workers the cell `(1, 0)` of the
concatenated result holds `EDELTA`; with `W = 1` it holds `1 + EDELTA`.  This
holds whatever the uninitialised memory (`s0`, `d0`, `memC`, `memN`) contains. -/
theorem C4_three_workers_differ (s0 d0 : IntArr) (memC memN : Int → Buf) :
    gather 3 3 (partition 3 3 s0 d0)
        (mpi_main 3 3 1 s0 d0 memC memN cornerVals) (IDX 1 0 3) = EDELTA ∧
    gather 3 1 (partition 3 1 s0 d0)
        (mpi_main 3 1 1 s0 d0 memC memN cornerVals) (IDX 1 0 3) = 1 + EDELTA := by
  constructor
  · obtain ⟨s_0, d_0⟩ := partition_3_3 s0 d0 0 (by decide) (by decide)
    obtain ⟨s_1, d_1⟩ := partition_3_3 s0 d0 1 (by decide) (by decide)
    obtain ⟨s_2, d_2⟩ := partition_3_3 s0 d0 2 (by decide) (by decide)
    have hg : gather 3 3 (partition 3 3 s0 d0)
        (mpi_main 3 3 1 s0 d0 memC memN cornerVals) (IDX 1 0 3)
        = (mpi_main 3 3 1 s0 d0 memC memN cornerVals 1).cur (IDX 0 0 3) := by
      have h3 : ∀ (body : Int → Buf → Buf) (s : Buf),
          forLoop 3 body s = body 2 (body 1 (body 0 s)) := fun _ _ => rfl
      unfold gather
      rw [h3]
      simp [recvBlock, s_0, d_0, s_1, d_1, s_2, d_2, IDX, HALO]
    rw [hg, mpi_main_one_step, s_1,
      propagate_energy_at _ _ _ _ _ _ (by decide) (by decide) (by decide) (by decide)]
    have e00 : IDX 0 0 3 = 4 := by decide
    have e01 : IDX 0 1 3 = 5 := by decide
    have e10 : IDX 1 0 3 = 7 := by decide
    have i1 : ∀ (g : Buf) (j : Int), 0 ≤ j → j < 3 →
        increment_energy g 3 1 EDELTA (IDX 0 j 3) = g (IDX 0 j 3) + EDELTA :=
      fun g j h0 h3 => increment_energy_at g 3 1 EDELTA 0 j (by decide) (by decide) h0 h3
    have i4 := fun g => i1 g 0 (by decide) (by decide)
    have i5 := fun g => i1 g 1 (by decide) (by decide)
    rw [e00] at i4
    rw [e01] at i5
    have u7 := setup_at (memC 0) 3 cornerVals 1 0 (by decide) (by decide) (by decide) (by decide)
    have u8 := setup_at (memC 0) 3 cornerVals 1 1 (by decide) (by decide) (by decide) (by decide)
    have u10 := setup_at (memC 0) 3 cornerVals 2 0 (by decide) (by decide) (by decide) (by decide)
    have e11 : IDX 1 1 3 = 8 := by decide
    have e20 : IDX 2 0 3 = 10 := by decide
    rw [e10] at u7
    rw [e11] at u8
    rw [e20] at u10
    simp [propagate_cell, sendrecv_up, sendrecv_down, recvBlock, scatter, s_0, d_0, s_1, d_1,
      s_2, d_2, e00, e01, e10, HALO, i4, i5, u7, u8, u10, cornerVals, EMAX, FDELTA]
    norm_num [EDELTA]
  · have hp : partition 3 1 s0 d0 = partition_init 3 1 s0 d0 := partition_one 3 s0 d0
    have s_0 : (partition 3 1 s0 d0).sendcnts 0 = 3 := by rw [hp]; simp [partition_init]
    have d_0 : (partition 3 1 s0 d0).displ 0 = 0 := by rw [hp]; simp [partition_init]
    have e00 : IDX 0 0 3 = 4 := by decide
    have e10 : IDX 1 0 3 = 7 := by decide
    have e11 : IDX 1 1 3 = 8 := by decide
    have e20 : IDX 2 0 3 = 10 := by decide
    have hg : gather 3 1 (partition 3 1 s0 d0)
        (mpi_main 3 1 1 s0 d0 memC memN cornerVals) (IDX 1 0 3)
        = (mpi_main 3 1 1 s0 d0 memC memN cornerVals 0).cur (IDX 1 0 3) := by
      unfold gather
      rw [forLoop_one]
      simp [recvBlock, s_0, d_0, e00, e10]
    rw [hg, mpi_main_one_step, s_0,
      propagate_energy_at _ _ _ _ _ _ (by decide) (by decide) (by decide) (by decide)]
    have i1 : ∀ (g : Buf) (i j : Int), 0 ≤ i → i < 3 → 0 ≤ j → j < 3 →
        increment_energy g 3 3 EDELTA (IDX i j 3) = g (IDX i j 3) + EDELTA :=
      fun g i j hi0 hi hj0 hj => increment_energy_at g 3 3 EDELTA i j hi0 hi hj0 hj
    have i4 := fun g => i1 g 0 0 (by decide) (by decide) (by decide) (by decide)
    have i7 := fun g => i1 g 1 0 (by decide) (by decide) (by decide) (by decide)
    have i8 := fun g => i1 g 1 1 (by decide) (by decide) (by decide) (by decide)
    have i10 := fun g => i1 g 2 0 (by decide) (by decide) (by decide) (by decide)
    rw [e00] at i4
    rw [e10] at i7
    rw [e11] at i8
    rw [e20] at i10
    have u4 := setup_at (memC 0) 3 cornerVals 0 0 (by decide) (by decide) (by decide) (by decide)
    have u7 := setup_at (memC 0) 3 cornerVals 1 0 (by decide) (by decide) (by decide) (by decide)
    have u8 := setup_at (memC 0) 3 cornerVals 1 1 (by decide) (by decide) (by decide) (by decide)
    have u10 := setup_at (memC 0) 3 cornerVals 2 0 (by decide) (by decide) (by decide) (by decide)
    rw [e00] at u4
    rw [e10] at u7
    rw [e11] at u8
    rw [e20] at u10
    simp [propagate_cell, sendrecv_up, sendrecv_down, recvBlock, scatter, s_0, d_0,
      e00, e10, e11, e20, HALO, i4, i7, i8, i10, u4, u7, u8, u10, cornerVals, EMAX, FDELTA]
    norm_num [EDELTA]

theorem forLoop_toNat {σ : Type} (m : Int) (body : Int → σ → σ) (s : σ) :
    forLoop m body s = forLoop (m.toNat : Int) body s := by
  unfold forLoop
  rw [Int.toNat_natCast]

/-- An accumulation loop adds up its terms. -/
theorem accRow {M : Type} [AddCommMonoid M] (g : Int → M) (n : Int) (s : M) :
    forLoop n (fun j s => s + g j) s = s + ∑ j in Finset.range n.toNat, g (j : Int) := by
  rw [forLoop_toNat]
  induction n.toNat with
  | zero => simp [forLoop_zero]
  | succ k ih =>
    have hk : ((k + 1 : Nat) : Int) = (k : Int) + 1 := by push_cast; rfl
    rw [hk, forLoop_succ, ih, Finset.sum_range_succ, add_assoc]

/-- A doubly nested accumulation loop adds up its terms. -/
theorem accLoop {M : Type} [AddCommMonoid M] (f : Int → Int → M) (n m : Int) (s : M) :
    forLoop m (fun i s => forLoop n (fun j s => s + f i j) s) s
      = s + ∑ i in Finset.range m.toNat, ∑ j in Finset.range n.toNat, f (i : Int) (j : Int) := by
  rw [forLoop_toNat]
  induction m.toNat with
  | zero => simp [forLoop_zero]
  | succ k ih =>
    have hk : ((k + 1 : Nat) : Int) = (k : Int) + 1 := by push_cast; rfl
    rw [hk, forLoop_succ, ih, accRow, Finset.sum_range_succ, add_assoc]

/-- Closed form of `sum_energy`. -/
theorem sum_energy_eq (grid : Buf) (n m : Int) :
    sum_energy grid n m
      = ∑ i in Finset.range m.toNat, ∑ j in Finset.range n.toNat,
          grid (IDX (i : Int) (j : Int) n) := by
  unfold sum_energy
  rw [accLoop (fun i j => grid (IDX i j n)), zero_add]

/-- Closed form of `count_cells`. -/
theorem count_cells_eq (grid : Buf) (n m : Int) :
    count_cells grid n m
      = ∑ i in Finset.range m.toNat, ∑ j in Finset.range n.toNat,
          (if grid (IDX (i : Int) (j : Int) n) > EMAX then (1 : Int) else 0) := by
  have h : count_cells grid n m
      = forLoop m (fun i c => forLoop n (fun j c =>
          c + (if grid (IDX i j n) > EMAX then (1 : Int) else 0)) c) 0 := by
    unfold count_cells
    congr 1
    funext i c
    congr 1
    funext j c
    split_ifs <;> simp
  rw [h, accLoop (fun i j => if grid (IDX i j n) > EMAX then (1 : Int) else 0), zero_add]

/-- C11: for every `n ≥ 1`, every owned row count `m ≥ 1` and every grid,
`count_cells` returns exactly the number of owned coordinates whose value is
strictly greater than `EMAX`; in particular it returns `0` when every owned
cell is at most `EMAX` (a cell equal to `EMAX` is not counted).  The same holds
for the `n × n` loop nest of `omp-earthquake.c`.  `count_cells` performs no
store, so the grid is unchanged. -/
theorem C11_count_cells_exact (n m : Int) (_hn : 1 ≤ n) (_hm : 1 ≤ m) (grid : Buf) :
    count_cells grid n m = ((overThreshold grid n m).card : Int) ∧
    omp_count_cells grid n = ((overThreshold grid n n).card : Int) ∧
    ((∀ i j : Int, 0 ≤ i → i < m → 0 ≤ j → j < n → grid (IDX i j n) ≤ EMAX) →
      count_cells grid n m = 0) := by
  have hcard : ∀ m' : Int, count_cells grid n m' = ((overThreshold grid n m').card : Int) := by
    intro m'
    rw [count_cells_eq]
    unfold overThreshold
    rw [Finset.card_filter, Finset.sum_product]
    push_cast
    rfl
  refine ⟨hcard m, hcard n, ?_⟩
  intro hle
  rw [count_cells_eq]
  apply Finset.sum_eq_zero
  intro i hi
  apply Finset.sum_eq_zero
  intro j hj
  rw [Finset.mem_range] at hi hj
  have := hle i j (by omega) (by omega) (by omega) (by omega)
  rw [if_neg (not_lt.mpr this)]

/-- Instance of C11: the 3×3 grid whose only non-zero cell is the centre `10`;
exactly one cell is above threshold. -/
theorem C11_count_cells_exact_witness :
    (1 : Int) ≤ 3 ∧ (1 : Int) ≤ 3 ∧
    count_cells (spike (IDX 1 1 3) 10) 3 3
      = ((overThreshold (spike (IDX 1 1 3) 10) 3 3).card : Int) ∧
    omp_count_cells (spike (IDX 1 1 3) 10) 3
      = ((overThreshold (spike (IDX 1 1 3) 10) 3 3).card : Int) ∧
    ((∀ i j : Int, 0 ≤ i → i < 3 → 0 ≤ j → j < 3 →
        spike (IDX 1 1 3) 10 (IDX i j 3) ≤ EMAX) →
      count_cells (spike (IDX 1 1 3) 10) 3 3 = 0) :=
  ⟨by decide, by decide,
    C11_count_cells_exact 3 3 (by decide) (by decide) (spike (IDX 1 1 3) 10)⟩

/-- The hand-constructed example of the specification: on the 3×3 grid with
exactly one cell above threshold `count_cells` returns `1`, and a cell holding
exactly `EMAX` is not counted. -/
theorem count_cells_center3 :
    count_cells (spike (IDX 1 1 3) 10) 3 3 = 1 ∧
    count_cells (spike (IDX 1 1 3) EMAX) 3 3 = 0 := by
  have h3 : (3 : Int).toNat = 3 := rfl
  constructor
  · rw [count_cells_eq, h3]
    simp only [Finset.sum_range_succ, Finset.sum_range_zero]
    norm_num [spike, IDX, HALO, EMAX]
  · rw [count_cells_eq, h3]
    simp only [Finset.sum_range_succ, Finset.sum_range_zero]
    norm_num [spike, IDX, HALO, EMAX]

/-- Offsets of the rows `-1 .. m` at the columns `0 .. n-1` lie in
`[0, (m+2)*n]`. -/
theorem IDX_range_rows (n m i j : Int) (hn : 1 ≤ n) (hi0 : -1 ≤ i) (hi : i ≤ m)
    (hj0 : 0 ≤ j) (hj : j < n) : 0 ≤ IDX i j n ∧ IDX i j n ≤ (m + 2) * n := by
  unfold IDX HALO
  have h1 : 0 ≤ (i + 1) * n := mul_nonneg (by omega) (by omega)
  have h2 : (i + 1) * n ≤ (m + 1) * n := mul_le_mul_of_nonneg_right (by omega) (by omega)
  have h3 : (m + 2) * n = (m + 1) * n + n := by ring
  constructor <;> omega

/-- Offsets of the rows `0 .. m-1` at the columns `-1 .. n` lie in
`[0, (m+2)*n]`. -/
theorem IDX_range_cols (n m i j : Int) (hn : 1 ≤ n) (hi0 : 0 ≤ i) (hi : i < m)
    (hj0 : -1 ≤ j) (hj : j ≤ n) : 0 ≤ IDX i j n ∧ IDX i j n ≤ (m + 2) * n := by
  unfold IDX HALO
  have h1 : 0 ≤ (i + 1) * n := mul_nonneg (by omega) (by omega)
  have h2 : (i + 1) * n ≤ m * n := mul_le_mul_of_nonneg_right (by omega) (by omega)
  have h3 : (m + 2) * n = m * n + n + n := by ring
  constructor <;> omega

/-- After the scatter, the local cell `(i, j)` of rank `r` holds the cell
`(displ[r] + i, j)` of the root's grid. -/
theorem scatter_at (n : Int) (t : Tables) (mem : Int → Buf) (r : Int) (i j : Int)
    (hi0 : 0 ≤ i) (hi : i < t.sendcnts r) (hj0 : 0 ≤ j) (hj : j < n) :
    scatter n t mem r (IDX i j n) = mem 0 (IDX (t.displ r + i) j n) := by
  unfold scatter recvBlock
  have h1 : IDX 0 0 n ≤ IDX i j n := by
    unfold IDX HALO
    have : 0 ≤ i * n := mul_nonneg hi0 (by omega)
    linarith
  have h2 : IDX i j n < IDX 0 0 n + t.sendcnts r * n := by
    unfold IDX HALO
    have : (i + 1) * n ≤ t.sendcnts r * n := mul_le_mul_of_nonneg_right (by omega) (by omega)
    linarith
  rw [if_pos ⟨h1, h2⟩]
  congr 1
  unfold IDX HALO
  ring

/-- Adding the row blocks of the first `k` ranks gives the rows below the
`k`-th boundary. -/
theorem block_sum_split {M : Type} [AddCommMonoid M] (F : Int → M) (n : Int) (hn : 0 ≤ n)
    (W : Nat) (hW : 1 ≤ W) (s0 d0 : IntArr) (k : Nat) (hk : k ≤ W) :
    ∑ r in Finset.range k, ∑ i in Finset.range ((partition_exact n W s0 d0).sendcnts (r : Int)).toNat,
        F ((partition_exact n W s0 d0).displ (r : Int) + (i : Int))
      = ∑ i in Finset.range (((k : Int) * n) / (W : Int)).toNat, F (i : Int) := by
  induction k with
  | zero => simp
  | succ k ih =>
    rw [Finset.sum_range_succ, ih (by omega)]
    have hd := partition_range_start n hn W hW s0 d0 k (by omega) (by omega)
    have he := partition_range_end n hn W hW s0 d0 k (by omega) (by omega)
    have hd0 : 0 ≤ ((k : Int) * n) / (W : Int) :=
      Int.ediv_nonneg (mul_nonneg (by omega) hn) (by omega)
    have hmono := boundary_mono n hn W hW k (k + 1) (by omega)
    have hsplit : ((((k + 1 : Nat) : Int)) * n / (W : Int)).toNat
        = (((k : Int) * n) / (W : Int)).toNat
          + ((partition_exact n W s0 d0).sendcnts (k : Int)).toNat := by
      push_cast
      omega
    rw [hsplit, Finset.sum_range_add, hd]
    congr 1
    apply Finset.sum_congr rfl
    intro i _
    congr 1
    omega

/-- The reductions over the row ranges of the partitioner without overflow add
up to the results on the whole grid. -/
theorem reduction_split_exact (n : Int) (hn : 1 ≤ n) (W : Nat) (hW : 1 ≤ W) (s0 d0 : IntArr)
    (mem : Int → Buf) :
    ∑ r in Finset.range W,
        sum_energy (scatter n (partition_exact n W s0 d0) mem (r : Int)) n
          ((partition_exact n W s0 d0).sendcnts (r : Int))
      = sum_energy (mem 0) n n ∧
    ∑ r in Finset.range W,
        count_cells (scatter n (partition_exact n W s0 d0) mem (r : Int)) n
          ((partition_exact n W s0 d0).sendcnts (r : Int))
      = count_cells (mem 0) n n := by
  have hn0 : 0 ≤ n := by omega
  have hWn : (((W : Int) * n) / (W : Int)).toNat = n.toNat := by
    rw [Int.mul_ediv_cancel_left n (by omega)]
  have hloc : ∀ (r : Nat) (i j : Nat),
      i < ((partition_exact n W s0 d0).sendcnts (r : Int)).toNat → j < n.toNat →
      scatter n (partition_exact n W s0 d0) mem (r : Int) (IDX (i : Int) (j : Int) n)
        = mem 0 (IDX ((partition_exact n W s0 d0).displ (r : Int) + (i : Int)) (j : Int) n) :=
    fun r i j hi hj => scatter_at n _ mem r i j (by omega) (by omega) (by omega) (by omega)
  constructor
  · have hb := block_sum_split
      (fun x => ∑ j in Finset.range n.toNat, mem 0 (IDX x (j : Int) n))
      n hn0 W hW s0 d0 W le_rfl
    rw [hWn] at hb
    rw [sum_energy_eq, ← hb]
    apply Finset.sum_congr rfl
    intro r _
    rw [sum_energy_eq]
    apply Finset.sum_congr rfl
    intro i hi
    apply Finset.sum_congr rfl
    intro j hj
    rw [Finset.mem_range] at hi hj
    rw [hloc r i j hi hj]
  · have hb := block_sum_split
      (fun x => ∑ j in Finset.range n.toNat,
        (if mem 0 (IDX x (j : Int) n) > EMAX then (1 : Int) else 0))
      n hn0 W hW s0 d0 W le_rfl
    rw [hWn] at hb
    rw [count_cells_eq, ← hb]
    apply Finset.sum_congr rfl
    intro r _
    rw [count_cells_eq]
    apply Finset.sum_congr rfl
    intro i hi
    apply Finset.sum_congr rfl
    intro j hj
    rw [Finset.mem_range] at hi hj
    rw [hloc r i j hi hj]

/-- C13: for every `n ≥ 1`, every `W ≥ 1` and every grid split into the
partitioner's row ranges, adding over all workers the per-worker results of
`sum_energy` (respectively `count_cells`) on the worker's `sendcnts[r]` owned
rows gives `sum_energy` (respectively `count_cells`) of the whole grid with
`m = n`.  This holds with the arithmetic taken exactly (`partition_exact`), and
for the 32-bit partitioner `partition` whenever `W * n` fits an `int`. -/
theorem C13_reduction_split (n : Int) (hn : 1 ≤ n) (W : Nat) (hW : 1 ≤ W) (s0 d0 : IntArr)
    (mem : Int → Buf) :
    (∑ r in Finset.range W,
        sum_energy (scatter n (partition_exact n W s0 d0) mem (r : Int)) n
          ((partition_exact n W s0 d0).sendcnts (r : Int))
      = sum_energy (mem 0) n n ∧
    ∑ r in Finset.range W,
        count_cells (scatter n (partition_exact n W s0 d0) mem (r : Int)) n
          ((partition_exact n W s0 d0).sendcnts (r : Int))
      = count_cells (mem 0) n n) ∧
    ((W : Int) * n ≤ INT_MAX →
      ∑ r in Finset.range W,
          sum_energy (scatter n (partition n W s0 d0) mem (r : Int)) n
            ((partition n W s0 d0).sendcnts (r : Int))
        = sum_energy (mem 0) n n ∧
      ∑ r in Finset.range W,
          count_cells (scatter n (partition n W s0 d0) mem (r : Int)) n
            ((partition n W s0 d0).sendcnts (r : Int))
        = count_cells (mem 0) n n) := by
  refine ⟨reduction_split_exact n hn W hW s0 d0 mem, fun hb => ?_⟩
  rw [partition_eq_exact n (by omega) W hW hb s0 d0]
  exact reduction_split_exact n hn W hW s0 d0 mem

/-- Instance of C13: the 3×3 grid with centre `10` split over `W = 2` workers. -/
theorem C13_reduction_split_witness :
    (1 : Int) ≤ 3 ∧ 1 ≤ 2 ∧
    (∑ r in Finset.range 2,
        sum_energy (scatter 3 (partition_exact 3 (2 : Nat) zeroArr zeroArr)
            (fun _ => spike (IDX 1 1 3) 10) (r : Int)) 3
          ((partition_exact 3 (2 : Nat) zeroArr zeroArr).sendcnts (r : Int))
      = sum_energy (spike (IDX 1 1 3) 10) 3 3 ∧
    ∑ r in Finset.range 2,
        count_cells (scatter 3 (partition_exact 3 (2 : Nat) zeroArr zeroArr)
            (fun _ => spike (IDX 1 1 3) 10) (r : Int)) 3
          ((partition_exact 3 (2 : Nat) zeroArr zeroArr).sendcnts (r : Int))
      = count_cells (spike (IDX 1 1 3) 10) 3 3) ∧
    (((2 : Nat) : Int) * 3 ≤ INT_MAX →
      ∑ r in Finset.range 2,
          sum_energy (scatter 3 (partition 3 (2 : Nat) zeroArr zeroArr)
              (fun _ => spike (IDX 1 1 3) 10) (r : Int)) 3
            ((partition 3 (2 : Nat) zeroArr zeroArr).sendcnts (r : Int))
        = sum_energy (spike (IDX 1 1 3) 10) 3 3 ∧
      ∑ r in Finset.range 2,
          count_cells (scatter 3 (partition 3 (2 : Nat) zeroArr zeroArr)
              (fun _ => spike (IDX 1 1 3) 10) (r : Int)) 3
            ((partition 3 (2 : Nat) zeroArr zeroArr).sendcnts (r : Int))
        = count_cells (spike (IDX 1 1 3) 10) 3 3) :=
  ⟨by decide, by decide,
    C13_reduction_split 3 (by decide) 2 (by decide) zeroArr zeroArr
      (fun _ => spike (IDX 1 1 3) 10)⟩

/-- The tables for `n = 5` rows over three workers: sizes `1, 2, 2`. -/
theorem partition_5_3 (s0 d0 : IntArr) :
    (partition 5 3 s0 d0).sendcnts 0 = 1 ∧ (partition 5 3 s0 d0).sendcnts 1 = 2 ∧
    (partition 5 3 s0 d0).sendcnts 2 = 2 := by
  have he := partition_eq_exact 5 (by decide) 3 (by decide) (by decide) s0 d0
  have h0 := (partition_closed 5 3 (by decide) s0 d0 0 (by decide) (by decide)).1
  have h1 := (partition_closed 5 3 (by decide) s0 d0 1 (by decide) (by decide)).1
  have h2 := (partition_closed 5 3 (by decide) s0 d0 2 (by decide) (by decide)).1
  simp only [Nat.cast_ofNat] at h0 h1 h2 he
  rw [he]
  exact ⟨h0.trans (by decide), h1.trans (by decide), h2.trans (by decide)⟩

/-- The exchange inside a time step is `halo_exchange`. -/
theorem mpi_step_eq (n comm_size : Int) (t : Tables) (w : Int → Proc) (r : Int) :
    (mpi_step n comm_size t w r).next
      = halo_exchange n comm_size t
          (fun r => increment_energy (w r).cur n (t.sendcnts r) EDELTA) r := rfl

/-- C14, failing input: `n = 5`, `W = 3` (row counts `1, 2, 2`), rank `1`, which
has a neighbour below and owns the local rows `0` and `1`.  The row it sends
downward is its row `sendcnts[0] - 1 = 0`, not its last owned row `1`, so the
top halo of rank `2` receives row `0`; the row it receives from below is stored
in its row `sendcnts[0] = 1`, an owned row, and its bottom halo row `2` is left
as it was. -/
theorem C14_exchange_uses_previous_rank_count (s0 d0 : IntArr) :
    (partition 5 3 s0 d0).sendcnts 1 = 2 ∧
    (∀ cur : Int → Buf,
      halo_exchange 5 3 (partition 5 3 s0 d0) cur 2 (IDX (-1) 0 5) = cur 1 (IDX 0 0 5) ∧
      halo_exchange 5 3 (partition 5 3 s0 d0) cur 1 (IDX 2 0 5) = cur 1 (IDX 2 0 5) ∧
      halo_exchange 5 3 (partition 5 3 s0 d0) cur 1 (IDX 1 0 5) = cur 2 (IDX 0 0 5)) ∧
    halo_exchange 5 3 (partition 5 3 s0 d0) tagged 2 (IDX (-1) 0 5) ≠ tagged 1 (IDX 1 0 5) ∧
    halo_exchange 5 3 (partition 5 3 s0 d0) tagged 1 (IDX 2 0 5) ≠ tagged 2 (IDX 0 0 5) ∧
    halo_exchange 5 3 (partition 5 3 s0 d0) tagged 1 (IDX 1 0 5) ≠ tagged 1 (IDX 1 0 5) := by
  obtain ⟨s_0, s_1, s_2⟩ := partition_5_3 s0 d0
  have hcur : ∀ cur : Int → Buf,
      halo_exchange 5 3 (partition 5 3 s0 d0) cur 2 (IDX (-1) 0 5) = cur 1 (IDX 0 0 5) ∧
      halo_exchange 5 3 (partition 5 3 s0 d0) cur 1 (IDX 2 0 5) = cur 1 (IDX 2 0 5) ∧
      halo_exchange 5 3 (partition 5 3 s0 d0) cur 1 (IDX 1 0 5) = cur 2 (IDX 0 0 5) := by
    intro cur
    refine ⟨?_, ?_, ?_⟩ <;>
    simp [halo_exchange, sendrecv_up, sendrecv_down, recvBlock, s_0, s_1, s_2, IDX, HALO]
  refine ⟨s_1, hcur, ?_, ?_, ?_⟩
  · rw [(hcur tagged).1]; norm_num [tagged, IDX, HALO]
  · rw [(hcur tagged).2.1]; norm_num [tagged, IDX, HALO]
  · rw [(hcur tagged).2.2]; norm_num [tagged, IDX, HALO]

/-- Whatever the command line, both buffers have `258 * 258` cells. -/
theorem main_config_cells (argc arg1 arg2 : Int) (c : Config)
    (h : main_config argc arg1 arg2 = some c) : c.size / sizeof_float = 258 * 258 := by
  unfold main_config at h
  by_cases h4 : argc > 4
  · simp [h4] at h
  · simp only [h4, if_false, Option.some.injEq] at h
    rw [← h]
    norm_num [HALO, sizeof_float]

/-- C15, failing input: the command line `prog 10 3` (`argc = 3`, `nsteps = 10`,
`n = 3`).  The time loop runs with `n = 3`, but each buffer holds
`size / sizeof(float) = 66564 = 258 * 258` cells, not `(3 + 2) * (3 + 2) = 25`:
`m` was computed from the default `n = 256`. -/
theorem C15_buffer_size_ignores_n :
    main_config 3 10 3 = some { n := 3, nsteps := 10, size := 266256 } ∧
    (266256 : Int) / sizeof_float = 66564 ∧
    (66564 : Int) ≠ (3 + 2) * (3 + 2) := by
  refine ⟨by decide, by decide, by decide⟩

/-- C16: the `EMAX` subtraction is applied once and is not a clamp: on the 3×3
grid `twoHot` the centre cell receives a quantum from two over-threshold
neighbours, and the value `propagate_energy` stores for it, `7 + 2 - 4 = 5`, is
still strictly greater than `EMAX`. -/
theorem C16_single_subtraction_not_clamp :
    ∃ (cur : Buf) (n i j : Int), inDomain n i j ∧ 2 ≤ hotNeighbours cur n i j ∧
      propagate_energy cur zeroBuf n n (IDX i j n) = cur (IDX i j n) + 2 * (EMAX / 4) - EMAX ∧
      propagate_energy cur zeroBuf n n (IDX i j n) > EMAX := by
  refine ⟨twoHot, 3, 1, 1, by decide, ?_, ?_, ?_⟩
  · norm_num [hotNeighbours, hot, inDomain, twoHot, IDX, HALO, EMAX]
  · rw [propagate_energy_at _ _ _ _ _ _ (by decide) (by decide) (by decide) (by decide)]
    norm_num [propagate_cell, twoHot, IDX, HALO, EMAX, FDELTA]
  · rw [propagate_energy_at _ _ _ _ _ _ (by decide) (by decide) (by decide) (by decide)]
    norm_num [propagate_cell, twoHot, IDX, HALO, EMAX, FDELTA]

/-- With every halo coordinate at most `EMAX`, the unchecked cell update equals
the edge-checked one on the whole domain. -/
theorem omp_cell_eq_checked (n : Int) (cur : Buf)
    (hhalo : ∀ i j : Int, isHalo n i j → cur (IDX i j n) ≤ EMAX)
    (i j : Int) (hi0 : 0 ≤ i) (hi : i < n) (hj0 : 0 ≤ j) (hj : j < n) :
    omp_propagate_cell cur n i j = propagate_cell cur n i j := by
  have e1 : (0 < j ∧ cur (IDX i (j - 1) n) > EMAX) ↔ cur (IDX i (j - 1) n) > EMAX := by
    refine ⟨fun h => h.2, fun h => ⟨?_, h⟩⟩
    by_contra hc
    have := hhalo i (j - 1) (by unfold isHalo; omega)
    exact absurd h (not_lt.mpr this)
  have e2 : (j < n - 1 ∧ cur (IDX i (j + 1) n) > EMAX) ↔ cur (IDX i (j + 1) n) > EMAX := by
    refine ⟨fun h => h.2, fun h => ⟨?_, h⟩⟩
    by_contra hc
    have := hhalo i (j + 1) (by unfold isHalo; omega)
    exact absurd h (not_lt.mpr this)
  have e3 : (0 < i ∧ cur (IDX (i - 1) j n) > EMAX) ↔ cur (IDX (i - 1) j n) > EMAX := by
    refine ⟨fun h => h.2, fun h => ⟨?_, h⟩⟩
    by_contra hc
    have := hhalo (i - 1) j (by unfold isHalo; omega)
    exact absurd h (not_lt.mpr this)
  have e4 : (i < n - 1 ∧ cur (IDX (i + 1) j n) > EMAX) ↔ cur (IDX (i + 1) j n) > EMAX := by
    refine ⟨fun h => h.2, fun h => ⟨?_, h⟩⟩
    by_contra hc
    have := hhalo (i + 1) j (by unfold isHalo; omega)
    exact absurd h (not_lt.mpr this)
  unfold omp_propagate_cell propagate_cell
  simp only [e1, e2, e3, e4]

/-- With the hypothesis taken on the values read through `IDX` at the halo
coordinates, the unchecked `propagate_energy` of `omp-earthquake.c` stores in
every owned cell the same value as the edge-checked one with `m = n`.  Because
`IDX` maps the columns `-1` and `n` onto cells of the last and first interior
column, this hypothesis also bounds those interior cells. -/
theorem omp_eq_checked_of_halo_coordinates (n : Int) (cur next : Buf)
    (hhalo : ∀ i j : Int, isHalo n i j → cur (IDX i j n) ≤ EMAX)
    (i j : Int) (hi0 : 0 ≤ i) (hi : i < n) (hj0 : 0 ≤ j) (hj : j < n) :
    omp_propagate_energy cur next n (IDX i j n) = propagate_energy cur next n n (IDX i j n) := by
  rw [propagate_energy_at _ _ _ _ _ _ hi0 hi hj0 hj, omp_propagate_energy_eq,
    storeLoop_at _ _ _ _ _ _ hi0 hi hj0 hj]
  exact omp_cell_eq_checked n cur hhalo i j hi0 hi hj0 hj

/-- C17, failing input: `n = 3`, `cur = twoHot` (cell `(0, 1) = 10`,
`(1, 0) = 10`, `(1, 1) = 7`).  Every cell of the buffer outside the owned area
holds `0 ≤ EMAX`, yet for the owned cell `(0, 2)` the unchecked
`propagate_energy` of `omp-earthquake.c` stores `2` and the edge-checked one
stores `1`: the right-neighbour read `IDX(0, 3)` is not a ghost cell but the
interior cell `(1, 0)`. -/
theorem C17_ghost_column_is_interior_cell :
    (∀ p : Int, (∀ i j : Int, inDomain 3 i j → p ≠ IDX i j 3) → twoHot p ≤ EMAX) ∧
    IDX 0 (2 + 1) 3 = IDX 1 0 3 ∧
    omp_propagate_energy twoHot zeroBuf 3 (IDX 0 2 3) = 2 ∧
    propagate_energy twoHot zeroBuf 3 3 (IDX 0 2 3) = 1 := by
  refine ⟨?_, by decide, ?_, ?_⟩
  · intro p hp
    unfold twoHot
    split_ifs with h1 h2
    · exact absurd h1 (hp 1 1 (by decide))
    · rcases h2 with h2 | h2
      · exact absurd h2 (hp 0 1 (by decide))
      · exact absurd h2 (hp 1 0 (by decide))
    · exact le_of_lt EMAX_pos
  · rw [omp_propagate_energy_eq,
      storeLoop_at _ _ _ _ _ _ (by decide) (by decide) (by decide) (by decide)]
    norm_num [omp_propagate_cell, twoHot, IDX, HALO, EMAX, FDELTA]
  · rw [propagate_energy_at _ _ _ _ _ _ (by decide) (by decide) (by decide) (by decide)]
    norm_num [propagate_cell, twoHot, IDX, HALO, EMAX, FDELTA]

/-- C18, failing input: for every grid side `n` (in particular `n = 2`) the
halo coordinate `(1, -1)` is mapped by `IDX` to the same backing cell as the
interior coordinate `(0, n-1)`, and the halo coordinate `(0, n)` to the same
cell as the interior coordinate `(1, 0)`: `IDX` strides rows by `n`, so the
columns `-1` and `n` are not separate storage. -/
theorem C18_halo_column_aliases_interior :
    (∀ n : Int, IDX 1 (-1) n = IDX 0 (n - 1) n ∧ IDX 0 n n = IDX 1 0 n) ∧
    isHalo 2 1 (-1) ∧ inDomain 2 0 1 ∧ IDX 1 (-1) 2 = IDX 0 1 2 ∧
    ((1 : Int), (-1 : Int)) ≠ (0, 1) := by
  refine ⟨fun n => ⟨?_, ?_⟩, by decide, by decide, by decide, by decide⟩
  · unfold IDX HALO; ring
  · unfold IDX HALO; ring

/-- The part of the layout property that the code has: `IDX` is injective on
the coordinates whose columns lie in `0 .. n-1` (all rows, halo rows included),
and no halo-row coordinate at such a column shares a cell with an interior
coordinate. -/
theorem IDX_rows_separate (n i j i' j' : Int) (hj0 : 0 ≤ j) (hj : j < n) (hj0' : 0 ≤ j')
    (hj' : j' < n) (hne : (i, j) ≠ (i', j')) : IDX i j n ≠ IDX i' j' n := by
  intro h
  obtain ⟨h1, h2⟩ := IDX_inj hj0 hj hj0' hj' h
  exact hne (by rw [h1, h2])

/-- Bounds on the two cell updates. -/
theorem cell_bounds (x : ℚ) (a b c d : Prop) [Decidable a] [Decidable b] [Decidable c]
    [Decidable d] (hx : x ≤ EMAX) :
    let F := x
    let F := if a then F + FDELTA else F
    let F := if b then F + FDELTA else F
    let F := if c then F + FDELTA else F
    let F := if d then F + FDELTA else F
    (if F > EMAX then F - EMAX else F) ≤ EMAX ∧
      (0 ≤ x → 0 ≤ (if F > EMAX then F - EMAX else F)) := by
  intro F F1 F2 F3 F4
  have hF : F4 ≤ x + 4 ∧ x ≤ F4 := by
    simp only [F4, F3, F2, F1, F, FDELTA, EMAX]
    split_ifs <;> constructor <;> linarith
  unfold EMAX at hx ⊢
  constructor
  · split_ifs <;> linarith [hF.1, hF.2]
  · intro h0
    split_ifs <;> linarith [hF.1, hF.2]

/-- C20: for every grid `cur` and every owned cell `(i, j)` with
`cur(i,j) ≤ EMAX`, the value `propagate_energy` stores in `next(i,j)` is
`≤ EMAX`, whatever the number of over-threshold neighbours, and it is `≥ 0` if
additionally `cur(i,j) ≥ 0`; this holds for the edge-checked variant with any
owned row count and for the unchecked variant of `omp-earthquake.c`. -/
theorem C20_stays_below_threshold (n m : Int) (cur next : Buf) (i j : Int)
    (hi0 : 0 ≤ i) (hi : i < m) (hj0 : 0 ≤ j) (hj : j < n)
    (hle : cur (IDX i j n) ≤ EMAX) :
    (propagate_energy cur next n m (IDX i j n) ≤ EMAX ∧
      (0 ≤ cur (IDX i j n) → 0 ≤ propagate_energy cur next n m (IDX i j n))) ∧
    (i < n →
      omp_propagate_energy cur next n (IDX i j n) ≤ EMAX ∧
      (0 ≤ cur (IDX i j n) → 0 ≤ omp_propagate_energy cur next n (IDX i j n))) := by
  constructor
  · rw [propagate_energy_at _ _ _ _ _ _ hi0 hi hj0 hj]
    exact cell_bounds (cur (IDX i j n)) _ _ _ _ hle
  · intro hin
    rw [omp_propagate_energy_eq, storeLoop_at _ _ _ _ _ _ hi0 hin hj0 hj]
    exact cell_bounds (cur (IDX i j n)) _ _ _ _ hle

/-- Instance of C20: on the grid `twoHot` the cell `(0, 0)` holds `0` and has
two over-threshold neighbours. -/
theorem C20_stays_below_threshold_witness :
    twoHot (IDX 0 0 3) ≤ EMAX ∧
    (propagate_energy twoHot zeroBuf 3 3 (IDX 0 0 3) ≤ EMAX ∧
      (0 ≤ twoHot (IDX 0 0 3) → 0 ≤ propagate_energy twoHot zeroBuf 3 3 (IDX 0 0 3))) ∧
    ((0 : Int) < 3 →
      omp_propagate_energy twoHot zeroBuf 3 (IDX 0 0 3) ≤ EMAX ∧
      (0 ≤ twoHot (IDX 0 0 3) → 0 ≤ omp_propagate_energy twoHot zeroBuf 3 (IDX 0 0 3))) :=
  have hle : twoHot (IDX 0 0 3) ≤ EMAX := by norm_num [twoHot, IDX, HALO, EMAX]
  ⟨hle, C20_stays_below_threshold 3 3 twoHot zeroBuf 0 0 (by decide) (by decide) (by decide)
    (by decide) hle⟩

/-- Shifting a sum one step down does not increase it when the term before the
range vanishes. -/
theorem sum_shift_down (g : Int → ℕ) (h0 : g (-1) = 0) (N : Nat) :
    ∑ j in Finset.range N, g ((j : Int) - 1) ≤ ∑ j in Finset.range N, g (j : Int) := by
  cases N with
  | zero => simp
  | succ M =>
    rw [Finset.sum_range_succ', Finset.sum_range_succ]
    have e : ∀ j : Nat, g (((j + 1 : Nat) : Int) - 1) = g (j : Int) := by
      intro j; congr 1; push_cast; ring
    simp only [e]
    have z : g (((0 : Nat) : Int) - 1) = 0 := by simpa using h0
    rw [z]
    omega

/-- Shifting a sum one step up does not increase it when the term after the
range vanishes. -/
theorem sum_shift_up (g : Int → ℕ) (N : Nat) (hN : g (N : Int) = 0) :
    ∑ j in Finset.range N, g ((j : Int) + 1) ≤ ∑ j in Finset.range N, g (j : Int) := by
  cases N with
  | zero => simp
  | succ M =>
    rw [Finset.sum_range_succ, Finset.sum_range_succ']
    have e : ∀ j : Nat, g ((j + 1 : Nat) : Int) = g ((j : Int) + 1) := by
      intro j; congr 1
    simp only [e]
    have z : g ((M : Int) + 1) = 0 := by
      have : ((M + 1 : Nat) : Int) = (M : Int) + 1 := by push_cast; rfl
      rw [← this]; exact hN
    rw [z]
    omega

theorem hot_outside (cur : Buf) (n i j : Int) (h : ¬ inDomain n i j) : hot cur n i j = 0 := by
  unfold hot
  rw [if_neg (fun hc => h hc.1)]

/-- Every over-threshold cell is counted by at most four cells: the neighbour
counts of the whole domain add up to at most four times the number of
over-threshold cells. -/
theorem hotNeighbours_total (cur : Buf) (n : Int) (hn : 0 ≤ n) :
    ∑ i in Finset.range n.toNat, ∑ j in Finset.range n.toNat,
        hotNeighbours cur n (i : Int) (j : Int)
      ≤ 4 * ∑ i in Finset.range n.toNat, ∑ j in Finset.range n.toNat,
          hot cur n (i : Int) (j : Int) := by
  have hN : ((n.toNat : Nat) : Int) = n := Int.toNat_of_nonneg hn
  have hl : ∑ i in Finset.range n.toNat, ∑ j in Finset.range n.toNat,
        hot cur n (i : Int) ((j : Int) - 1)
      ≤ ∑ i in Finset.range n.toNat, ∑ j in Finset.range n.toNat,
        hot cur n (i : Int) (j : Int) :=
    Finset.sum_le_sum (fun i _ => sum_shift_down (fun x => hot cur n (i : Int) x)
      (hot_outside cur n _ _ (by unfold inDomain; omega)) n.toNat)
  have hr : ∑ i in Finset.range n.toNat, ∑ j in Finset.range n.toNat,
        hot cur n (i : Int) ((j : Int) + 1)
      ≤ ∑ i in Finset.range n.toNat, ∑ j in Finset.range n.toNat,
        hot cur n (i : Int) (j : Int) :=
    Finset.sum_le_sum (fun i _ => sum_shift_up (fun x => hot cur n (i : Int) x) n.toNat
      (hot_outside cur n _ _ (by unfold inDomain; omega)))
  have hu : ∑ i in Finset.range n.toNat, ∑ j in Finset.range n.toNat,
        hot cur n ((i : Int) - 1) (j : Int)
      ≤ ∑ i in Finset.range n.toNat, ∑ j in Finset.range n.toNat,
        hot cur n (i : Int) (j : Int) := by
    rw [Finset.sum_comm]
    nth_rewrite 2 [Finset.sum_comm]
    exact Finset.sum_le_sum (fun j _ => sum_shift_down (fun x => hot cur n x (j : Int))
      (hot_outside cur n _ _ (by unfold inDomain; omega)) n.toNat)
  have hd : ∑ i in Finset.range n.toNat, ∑ j in Finset.range n.toNat,
        hot cur n ((i : Int) + 1) (j : Int)
      ≤ ∑ i in Finset.range n.toNat, ∑ j in Finset.range n.toNat,
        hot cur n (i : Int) (j : Int) := by
    rw [Finset.sum_comm]
    nth_rewrite 2 [Finset.sum_comm]
    exact Finset.sum_le_sum (fun j _ => sum_shift_up (fun x => hot cur n x (j : Int)) n.toNat
      (hot_outside cur n _ _ (by unfold inDomain; omega)))
  unfold hotNeighbours
  simp only [Finset.sum_add_distrib]
  omega

/-- What a cell holds after the release is at most its old value plus the
quanta it received minus `EMAX` if it was itself over the threshold. -/
theorem release_le (c : ℚ) (k h : ℕ) (hh : h = if c > EMAX then 1 else 0) :
    release (c + EMAX / 4 * (k : ℚ)) ≤ c + (k : ℚ) - 4 * (h : ℚ) := by
  have hk : (0 : ℚ) ≤ (k : ℚ) := Nat.cast_nonneg k
  unfold release
  unfold EMAX at hh ⊢
  by_cases hc : c > 4
  · rw [if_pos hc] at hh
    subst hh
    have : c + 4 / 4 * (k : ℚ) > 4 := by linarith
    rw [if_pos this]
    push_cast; linarith
  · rw [if_neg hc] at hh
    subst hh
    split_ifs <;> push_cast <;> linarith

/-- C19: propagation never increases total energy: for every `n ≥ 1` and every
grid `cur`, `sum_energy` of the grid that the single-worker edge-checked
`propagate_energy` (`m = n`) writes to `next` is at most `sum_energy` of
`cur`. -/
theorem C19_propagation_does_not_add_energy (n : Int) (hn : 1 ≤ n) (cur next : Buf) :
    sum_energy (propagate_energy cur next n n) n n ≤ sum_energy cur n n := by
  rw [sum_energy_eq, sum_energy_eq]
  have hpt : ∀ i ∈ Finset.range n.toNat, ∀ j ∈ Finset.range n.toNat,
      propagate_energy cur next n n (IDX (i : Int) (j : Int) n)
        ≤ cur (IDX (i : Int) (j : Int) n) + ((hotNeighbours cur n (i : Int) (j : Int) : ℕ) : ℚ)
          - 4 * ((hot cur n (i : Int) (j : Int) : ℕ) : ℚ) := by
    intro i hi j hj
    rw [Finset.mem_range] at hi hj
    rw [propagate_energy_owned n cur next i j (by omega) (by omega) (by omega) (by omega)]
    apply release_le
    unfold hot
    have hd : inDomain n (i : Int) (j : Int) := by unfold inDomain; omega
    simp only [hd, true_and]
  have hsum := Finset.sum_le_sum (fun i hi => Finset.sum_le_sum (fun j hj => hpt i hi j hj))
  refine le_trans hsum ?_
  have htot := hotNeighbours_total cur n (by omega)
  have htot' : (∑ i in Finset.range n.toNat, ∑ j in Finset.range n.toNat,
        ((hotNeighbours cur n (i : Int) (j : Int) : ℕ) : ℚ))
      ≤ 4 * ∑ i in Finset.range n.toNat, ∑ j in Finset.range n.toNat,
          ((hot cur n (i : Int) (j : Int) : ℕ) : ℚ) := by
    exact_mod_cast htot
  simp only [Finset.sum_sub_distrib, Finset.sum_add_distrib, ← Finset.mul_sum]
  linarith

/-- Instance of C19: the 3×3 grid with centre `10`. -/
theorem C19_propagation_does_not_add_energy_witness :
    (1 : Int) ≤ 3 ∧
    sum_energy (propagate_energy (spike (IDX 1 1 3) 10) zeroBuf 3 3) 3 3
      ≤ sum_energy (spike (IDX 1 1 3) 10) 3 3 :=
  ⟨by decide, C19_propagation_does_not_add_energy 3 (by decide) (spike (IDX 1 1 3) 10) zeroBuf⟩

/-- The touched coordinates are the rows `0 .. n-1` at the columns `-1 .. n`
and the rows `-1 .. n` at the columns `0 .. n-1`. -/
theorem ompTouched_range (n i j : Int) (h : ompTouched n i j) :
    (0 ≤ i ∧ i < n ∧ -1 ≤ j ∧ j ≤ n) ∨ (-1 ≤ i ∧ i ≤ n ∧ 0 ≤ j ∧ j < n) := by
  obtain ⟨a, b, ha0, ha, hb0, hb, hc⟩ := h
  simp only [Prod.mk.injEq] at hc
  omega

/-- Every offset touched during a time step lies in `[0, (n+2)*n]`. -/
theorem ompTouched_offsets (n i j : Int) (hn : 1 ≤ n) (h : ompTouched n i j) :
    0 ≤ IDX i j n ∧ IDX i j n ≤ (n + 2) * n := by
  rcases ompTouched_range n i j h with ⟨h1, h2, h3, h4⟩ | ⟨h1, h2, h3, h4⟩
  · exact IDX_range_cols n n i j hn h1 h2 h3 h4
  · exact IDX_range_rows n n i j hn h1 h2 h3 h4

/-- The part of the safety property that the code has: for a grid side
`1 ≤ n ≤ 257` every offset touched during a time step of the OpenMP variant is
`≥ 0` and below the number of cells of the buffers that `main` allocated. -/
theorem omp_accesses_in_bounds (argc arg1 arg2 : Int) (c : Config)
    (hc : main_config argc arg1 arg2 = some c) (hn : 1 ≤ c.n) (hn' : c.n ≤ 257)
    (i j : Int) (h : ompTouched c.n i j) :
    0 ≤ IDX i j c.n ∧ IDX i j c.n < c.size / sizeof_float := by
  rw [main_config_cells argc arg1 arg2 c hc]
  obtain ⟨h0, h1⟩ := ompTouched_offsets c.n i j hn h
  refine ⟨h0, ?_⟩
  have : (c.n + 2) * c.n ≤ (257 + 2) * 257 :=
    mul_le_mul (by omega) hn' (by omega) (by omega)
  omega

/-- C21, failing input: the command line `prog 1 258` (`argc = 3`, `n = 258`).
`main` allocates buffers of `66564 = 258 * 258` cells, but the owned coordinate
`(256, 257)`, which `increment_energy` and `propagate_energy` write, has the
offset `IDX(256, 257) = 66564`, one past the last cell, and the coordinate
`(258, 257)`, which `propagate_energy` reads, has the offset `67080`. -/
theorem C21_access_outside_buffer :
    main_config 3 1 258 = some { n := 258, nsteps := 1, size := 266256 } ∧
    (266256 : Int) / sizeof_float = 66564 ∧
    inDomain 258 256 257 ∧ ompTouched 258 256 257 ∧
    IDX 256 257 258 = 66564 ∧ ¬ (IDX 256 257 258 < 66564) ∧
    ompTouched 258 258 257 ∧ IDX 258 257 258 = 67080 := by
  refine ⟨by decide, by decide, by decide, ?_, by decide, by decide, ?_, by decide⟩
  · exact ⟨256, 257, by decide, by decide, by decide, by decide, Or.inl rfl⟩
  · exact ⟨257, 257, by decide, by decide, by decide, by decide,
      Or.inr (Or.inr (Or.inr (Or.inr (by decide))))⟩

end Earthquake
